import Mathlib

/-!
# Recursive-backtracking maze generator

A shallow embedding of `src/algorithms/MazeAlgorithms/RecursiveBacktracking.js`.

* Coordinates are the two-element arrays `[row, column]` of the source, here pairs of
  integers.
* `visited` is the source's object used as a set of coordinates; here a list read only
  through membership.
* `stack` is kept with its top first: `stack.pop()` takes the head, `stack.push(x)` conses.
* `mazeList` is kept in the order of the source: `mazeList.push(x)` appends at the end.
* `shuffleArray` is imported from a helper module; it is a parameter of the model. It
  receives the number of shuffles made so far in the run, so it may answer differently at
  every call.
* `dfs` calls itself in tail position; the model iterates the body of one call
  (`dfsStep`) with a bound on the number of calls.
-/

namespace RecursiveBacktracking

/-! ## Definitions -/

/-- A coordinate `[row, column]`. -/
abbrev Coord := Int × Int

/-- The keys of a node object that the algorithm reads. -/
structure Node where
  row : Int
  column : Int
  deriving DecidableEq, Repr

/-- The matrix of nodes, through the two lengths the algorithm reads:
`rows` is `graph.length` and `cols` is `graph[0].length`. -/
structure Graph where
  rows : Nat
  cols : Nat
  deriving DecidableEq, Repr

/-- The object built by the constructor. -/
structure Maze where
  graph : Graph
  startNode : Node
  endNode : Node
  deriving DecidableEq, Repr

/-- The imported `shuffleArray`; the first argument counts the earlier calls of the run. -/
abbrev Shuffle := Nat → List Coord → List Coord

/-- The mutable data one run of `dfs` works on. -/
structure Cfg where
  stack : List Coord
  visited : List Coord
  mazeList : List Coord
  shuffles : Nat
  deriving DecidableEq, Repr

/-- What one call of `dfs` does: call `dfs` again, return, or raise a `TypeError`. -/
inductive Step where
  | recurse : Cfg → Step
  | finish : Cfg → Step
  | throws : Step
  deriving DecidableEq, Repr

/-- The result of a run: a value, a `TypeError`, or still running when the bound on the
number of calls was reached. -/
inductive Outcome (α : Type) where
  | returned : α → Outcome α
  | threw : Outcome α
  | pending : Outcome α
  deriving DecidableEq, Repr

/-- The source's `getInBetweenNodes`. The source divides JavaScript numbers; the model
divides integers, which is the same whenever the difference is even, as it is for every
neighbor that `getUnvisitedNeighbors` returns (a difference of 0, 2 or -2). -/
def getInBetweenNodes (currentNode neigh : Coord) : Coord :=
  let row := (neigh.1 - currentNode.1) / 2
  let col := (neigh.2 - currentNode.2) / 2
  (currentNode.1 + row, currentNode.2 + col)

/-- The source's `getUnvisitedNeighbors`; `visited[i] === undefined` is `i ∉ visited`. -/
def getUnvisitedNeighbors (graph : Graph) (currentNode : Coord) (visited : List Coord) :
    List Coord :=
  let rowSize : Int := (graph.rows : Int) - 2
  let columnSize : Int := (graph.cols : Int) - 2
  let row := currentNode.1
  let column := currentNode.2
  let unvisited : List Coord := []
  let unvisited := if column < columnSize then unvisited ++ [(row, column + 2)] else unvisited
  let unvisited := if row < rowSize then unvisited ++ [(row + 2, column)] else unvisited
  let unvisited := if column > 1 then unvisited ++ [(row, column - 2)] else unvisited
  let unvisited := if row > 1 then unvisited ++ [(row - 2, column)] else unvisited
  unvisited.filter (fun i => decide (i ∉ visited))

/-- The body of one call of the source's `dfs`. Popping an empty stack gives `undefined`,
whose index 0 is then read by `getUnvisitedNeighbors`: a `TypeError`; the same holds for the
`pop()` of an empty shuffled array, read by `getInBetweenNodes`. -/
def dfsStep (graph : Graph) (shuffleArray : Shuffle) (cfg : Cfg) : Step :=
  match cfg.stack with
  | [] => Step.throws
  | currentNode :: stack =>
    let mazeList := cfg.mazeList ++ [currentNode]
    let visited := currentNode :: cfg.visited
    let unvisitedNeigh := getUnvisitedNeighbors graph currentNode visited
    if unvisitedNeigh.length = 0 then
      if stack.length = 0 then
        Step.finish ⟨stack, visited, mazeList, cfg.shuffles⟩
      else
        Step.recurse ⟨stack, visited, mazeList, cfg.shuffles⟩
    else
      match (shuffleArray cfg.shuffles unvisitedNeigh).getLast? with
      | none => Step.throws
      | some neighbor =>
        let inBetweenNode := getInBetweenNodes currentNode neighbor
        Step.recurse ⟨neighbor :: currentNode :: stack, inBetweenNode :: visited,
          mazeList ++ [inBetweenNode], cfg.shuffles + 1⟩

/-- The source's `dfs`, with at most `fuel` calls. -/
def dfs (graph : Graph) (shuffleArray : Shuffle) : Nat → Cfg → Outcome Cfg
  | 0, _ => Outcome.pending
  | fuel + 1, cfg =>
    match dfsStep graph shuffleArray cfg with
    | Step.recurse next => dfs graph shuffleArray fuel next
    | Step.finish final => Outcome.returned final
    | Step.throws => Outcome.threw

/-- The data `runMaze` hands to the first call of `dfs`. -/
def initCfg (start : Coord) : Cfg :=
  ⟨[start], [], [], 0⟩

/-- The source's `runMaze`, with at most `fuel` calls of `dfs`. -/
def runMaze (self : Maze) (shuffleArray : Shuffle) (fuel : Nat) : Outcome (List Coord) :=
  let start : Coord := (self.startNode.row, self.startNode.column)
  match dfs self.graph shuffleArray fuel (initCfg start) with
  | Outcome.returned final => Outcome.returned final.mazeList.tail.dropLast
  | Outcome.threw => Outcome.threw
  | Outcome.pending => Outcome.pending

/-- The list recorded by `dfs` in a run of `runMaze`, before it is trimmed. -/
def recorded (self : Maze) (shuffleArray : Shuffle) (fuel : Nat) : Outcome (List Coord) :=
  match dfs self.graph shuffleArray fuel
      (initCfg (self.startNode.row, self.startNode.column)) with
  | Outcome.returned final => Outcome.returned final.mazeList
  | Outcome.threw => Outcome.threw
  | Outcome.pending => Outcome.pending

/-- A shuffle that leaves every list as it is. -/
def idShuffle : Shuffle := fun _ l => l

/-- A shuffle that reverses every list. -/
def revShuffle : Shuffle := fun _ l => l.reverse

/-- The shuffle returns a permutation of its argument at every call. -/
def PermShuffle (shuffleArray : Shuffle) : Prop :=
  ∀ (k : Nat) (l : List Coord), (shuffleArray k l).Perm l

/-- The grid of the claims: both lengths odd and at least 3. -/
def ValidGrid (graph : Graph) : Prop :=
  graph.rows % 2 = 1 ∧ graph.cols % 2 = 1 ∧ 3 ≤ graph.rows ∧ 3 ≤ graph.cols

/-- The coordinate indexes a cell of the grid. -/
def InGrid (graph : Graph) (p : Coord) : Prop :=
  0 ≤ p.1 ∧ p.1 ≤ (graph.rows : Int) - 1 ∧ 0 ≤ p.2 ∧ p.2 ≤ (graph.cols : Int) - 1

/-- A real cell: even row, even column, inside the grid. -/
def RealCell (graph : Graph) (p : Coord) : Prop :=
  InGrid graph p ∧ p.1 % 2 = 0 ∧ p.2 % 2 = 0

/-- An in-between cell: exactly one of row and column is odd. -/
def InBetween (p : Coord) : Prop :=
  (p.1 % 2 = 0 ∧ p.2 % 2 = 1) ∨ (p.1 % 2 = 1 ∧ p.2 % 2 = 0)

instance (graph : Graph) (p : Coord) : Decidable (InGrid graph p) := by
  unfold InGrid; infer_instance

instance (graph : Graph) (p : Coord) : Decidable (RealCell graph p) := by
  unfold RealCell; infer_instance

instance (p : Coord) : Decidable (InBetween p) := by
  unfold InBetween; infer_instance

/-- The start node of the claims: a real cell of the grid. -/
def ValidStart (self : Maze) : Prop :=
  RealCell self.graph (self.startNode.row, self.startNode.column)

/-- The number `V` of real cells. -/
def numReal (graph : Graph) : Nat :=
  ((graph.rows + 1) / 2) * ((graph.cols + 1) / 2)

/-- The real cells of the grid, as a finite set. -/
def realCells (graph : Graph) : Finset Coord :=
  ((Finset.range ((graph.rows + 1) / 2)) ×ˢ (Finset.range ((graph.cols + 1) / 2))).image
    (fun ij => ((2 * ij.1 : Nat), (2 * ij.2 : Nat)))

/-- The candidate test of `getUnvisitedNeighbors`: `q` is one of the four cells pushed for
`p`, before the filter on `visited`. -/
def Nbr (graph : Graph) (p q : Coord) : Prop :=
  (q = (p.1, p.2 + 2) ∧ p.2 < (graph.cols : Int) - 2) ∨
  (q = (p.1 + 2, p.2) ∧ p.1 < (graph.rows : Int) - 2) ∨
  (q = (p.1, p.2 - 2) ∧ p.2 > 1) ∨
  (q = (p.1 - 2, p.2) ∧ p.1 > 1)

/-- One call of `dfs` leads from the first data to the second. -/
def Calls (graph : Graph) (shuffleArray : Shuffle) (a b : Cfg) : Prop :=
  dfsStep graph shuffleArray a = Step.recurse b

/-- The data `b` is reached from `a` by a chain of `dfs` calls. -/
def Reaches (graph : Graph) (shuffleArray : Shuffle) (a b : Cfg) : Prop :=
  Relation.ReflTransGen (Calls graph shuffleArray) a b

/-- The four cells at distance 1 of a cell. -/
def Touches (m q : Coord) : Prop :=
  (q.1 = m.1 ∧ (q.2 = m.2 + 1 ∨ q.2 = m.2 - 1)) ∨
  (q.2 = m.2 ∧ (q.1 = m.1 + 1 ∨ q.1 = m.1 - 1))

/-- What holds of the data at the entry of every call of `dfs`. -/
structure Inv (graph : Graph) (start : Coord) (cfg : Cfg) : Prop where
  stack_ne : cfg.stack ≠ []
  stack_real : ∀ p ∈ cfg.stack, RealCell graph p
  stack_last : cfg.stack.getLast? = some start
  below : ∀ p ∈ cfg.stack.tail, p ∈ cfg.visited
  stack_nodup : cfg.stack.Nodup
  visited_iff : ∀ p, p ∈ cfg.visited ↔ p ∈ cfg.mazeList
  visited_kind : ∀ p ∈ cfg.visited, RealCell graph p ∨ (InGrid graph p ∧ InBetween p)
  closed : ∀ p ∈ cfg.visited, RealCell graph p → p ∉ cfg.stack →
    ∀ q, Nbr graph p q → q ∈ cfg.visited
  flank : ∀ m ∈ cfg.visited, ∀ q, Touches m q → q.1 % 2 = 0 → q.2 % 2 = 0 →
    q ∈ cfg.visited ∨ q ∈ cfg.stack

/-- The real cells not reached yet: neither marked visited nor waiting on the stack. -/
def unvisitedReal (graph : Graph) (cfg : Cfg) : Finset Coord :=
  (realCells graph).filter (fun p => p ∉ cfg.visited ∧ p ∉ cfg.stack)

/-- The measure of termination: twice the number of real cells not reached yet, plus the
length of the stack. -/
def dfsMeasure (graph : Graph) (cfg : Cfg) : Nat :=
  2 * (unvisitedReal graph cfg).card + cfg.stack.length

/-- The four moves of `getUnvisitedNeighbors`. -/
def IsDir (d : Coord) : Prop :=
  d = (0, 2) ∨ d = (2, 0) ∨ d = (0, -2) ∨ d = (-2, 0)

/-- A set of cells that contains every allowed candidate of each of its real cells. -/
def ClosedIn (graph : Graph) (A S : Coord → Prop) : Prop :=
  ∀ p q, S p → RealCell graph p → Nbr graph p q → A q → S q

instance (graph : Graph) : Decidable (ValidGrid graph) := by
  unfold ValidGrid; infer_instance

instance (self : Maze) : Decidable (ValidStart self) := by
  unfold ValidStart; infer_instance

/-- The start coordinate built by `runMaze`. -/
def Maze.start (self : Maze) : Coord :=
  (self.startNode.row, self.startNode.column)

/-- The end coordinate of the maze. -/
def Maze.finishCell (self : Maze) : Coord :=
  (self.endNode.row, self.endNode.column)

/-- The 3x3 grid with start (0,0) and end (2,2). -/
def maze3 : Maze := ⟨⟨3, 3⟩, ⟨0, 0⟩, ⟨2, 2⟩⟩

/-- The 5x5 grid with start (0,0) and end (4,4). -/
def maze5 : Maze := ⟨⟨5, 5⟩, ⟨0, 0⟩, ⟨4, 4⟩⟩

/-- The neighbor computation as the specification words it: the four candidates right,
bottom, left, top, each with the test that keeps it. -/
def candidates (graph : Graph) (c : Coord) : List (Coord × Bool) :=
  [((c.1, c.2 + 2), decide (c.2 < (graph.cols : Int) - 2)),
   ((c.1 + 2, c.2), decide (c.1 < (graph.rows : Int) - 2)),
   ((c.1, c.2 - 2), decide (c.2 > 1)),
   ((c.1 - 2, c.2), decide (c.1 > 1))]

/-- The start in the recorded list: before the first call nothing is recorded; afterwards
the list begins with the start, does not hold it again, and some other real cell has been
reached. -/
def StartInv (graph : Graph) (start : Coord) (cfg : Cfg) : Prop :=
  (cfg.mazeList = [] ∧ cfg.stack = [start]) ∨
  (∃ m, cfg.mazeList = start :: m ∧ start ∉ m ∧
    ∃ x, RealCell graph x ∧ x ≠ start ∧ (x ∈ cfg.visited ∨ x ∈ cfg.stack))

/-- The neighbor that a call of `dfs` picks for its forward step, if it makes one. -/
def chosenNeighbor (graph : Graph) (shuffleArray : Shuffle) (cfg : Cfg) : Option Coord :=
  match cfg.stack with
  | [] => none
  | currentNode :: _ =>
    let unvisitedNeigh := getUnvisitedNeighbors graph currentNode (currentNode :: cfg.visited)
    if unvisitedNeigh.length = 0 then none
    else (shuffleArray cfg.shuffles unvisitedNeigh).getLast?

/-- The neighbors picked by the calls of a run of at most `fuel` calls, in order. -/
def chosenList (graph : Graph) (shuffleArray : Shuffle) : Nat → Cfg → List Coord
  | 0, _ => []
  | fuel + 1, cfg =>
    match dfsStep graph shuffleArray cfg with
    | Step.recurse next =>
      (chosenNeighbor graph shuffleArray cfg).toList ++ chosenList graph shuffleArray fuel next
    | Step.finish _ => []
    | Step.throws => []

/-- The list that `runMaze` returns on the 3x3 grid with the shuffle that changes nothing. -/
def maze3List : List Coord :=
  [(1, 0), (2, 0), (2, 1), (2, 2), (1, 2), (0, 2), (2, 2), (2, 0)]

/-- The outermost ring of the grid. -/
def OnRing (graph : Graph) (p : Coord) : Prop :=
  p.1 = 0 ∨ p.1 = (graph.rows : Int) - 1 ∨ p.2 = 0 ∨ p.2 = (graph.cols : Int) - 1

instance (graph : Graph) (p : Coord) : Decidable (OnRing graph p) := by
  unfold OnRing; infer_instance

/-- Two cells exactly 2 apart on one axis and equal on the other. -/
def TwoApart (p q : Coord) : Prop :=
  (p.1 = q.1 ∧ (q.2 = p.2 + 2 ∨ q.2 = p.2 - 2)) ∨
  (p.2 = q.2 ∧ (q.1 = p.1 + 2 ∨ q.1 = p.1 - 2))

/-- The cell midway between two cells. -/
def midpoint (p q : Coord) : Coord :=
  ((p.1 + q.1) / 2, (p.2 + q.2) / 2)

/-- The real cells of the grid, as a type of vertices. -/
abbrev RealVertex (graph : Graph) : Type :=
  { p : Coord // RealCell graph p }

/-- The graph carved by a list of coordinates: its vertices are the real cells, and two
real cells exactly 2 apart on one axis are joined iff their midpoint occurs in the list. -/
def carved (graph : Graph) (l : List Coord) : SimpleGraph (RealVertex graph) where
  Adj a b := TwoApart a.1 b.1 ∧ midpoint a.1 b.1 ∈ l
  symm := by
    intro a b h
    obtain ⟨h1, h2⟩ := h
    have e : midpoint b.1 a.1 = midpoint a.1 b.1 := by
      unfold midpoint
      rw [add_comm b.1.1, add_comm b.1.2]
    refine ⟨?_, e ▸ h2⟩
    unfold TwoApart at h1 ⊢
    omega
  loopless := by
    intro a h
    have := h.1
    unfold TwoApart at this
    omega

instance (graph : Graph) (shuffleArray : Shuffle) (a b : Cfg) :
    Decidable (Calls graph shuffleArray a b) := by
  unfold Calls; infer_instance

/-- The other list that `runMaze` can return on the 3x3 grid with start (0,0): the one of
the shuffle that reverses. -/
def maze3ListAlt : List Coord :=
  [(0, 1), (0, 2), (1, 2), (2, 2), (2, 1), (2, 0), (2, 2), (0, 2)]

/-- The call leaves no choice to the shuffle: at most one neighbor is unvisited. -/
def shortStep (graph : Graph) (cfg : Cfg) : Bool :=
  match cfg.stack with
  | [] => true
  | currentNode :: _ =>
    decide ((getUnvisitedNeighbors graph currentNode (currentNode :: cfg.visited)).length ≤ 1)

/-- No call of the run of at most `fuel` calls leaves a choice to the shuffle. -/
def singleRun (graph : Graph) : Nat → Cfg → Bool
  | 0, _ => true
  | fuel + 1, cfg =>
    shortStep graph cfg &&
      (match dfsStep graph idShuffle cfg with
        | Step.recurse next => singleRun graph fuel next
        | Step.finish _ => true
        | Step.throws => true)

/-- The rows and columns that the guards of `getUnvisitedNeighbors` keep the traversal
in: from the start or the grid's first index, whichever is lower, to the start or the
grid's last index, whichever is higher. For a start inside the grid this is the grid. -/
def InBox (graph : Graph) (start p : Coord) : Prop :=
  min start.1 0 ≤ p.1 ∧ p.1 ≤ max start.1 ((graph.rows : Int) - 1) ∧
  min start.2 0 ≤ p.2 ∧ p.2 ≤ max start.2 ((graph.cols : Int) - 1)

/-- The cells of the box, as a finite set. -/
def boxCells (graph : Graph) (start : Coord) : Finset Coord :=
  Finset.Icc (min start.1 0) (max start.1 ((graph.rows : Int) - 1)) ×ˢ
    Finset.Icc (min start.2 0) (max start.2 ((graph.cols : Int) - 1))

/-- The cells of the box not reached yet: neither marked visited nor on the stack. -/
def unvisitedBox (graph : Graph) (start : Coord) (cfg : Cfg) : Finset Coord :=
  (boxCells graph start).filter (fun p => p ∉ cfg.visited ∧ p ∉ cfg.stack)

/-- The measure of termination for any start: twice the number of cells of the box not
reached yet, plus the length of the stack. -/
def boxMeasure (graph : Graph) (start : Coord) (cfg : Cfg) : Nat :=
  2 * (unvisitedBox graph start cfg).card + cfg.stack.length

/-- What holds at the entry of every call of `dfs` from any start: the stack is not
empty, its cells satisfy `P`, the cells below the top are marked visited, and the recorded
cells satisfy `Q`. -/
structure StackInv (P Q : Coord → Prop) (cfg : Cfg) : Prop where
  stack_ne : cfg.stack ≠ []
  stack_P : ∀ p ∈ cfg.stack, P p
  below : ∀ p ∈ cfg.stack.tail, p ∈ cfg.visited
  recorded_Q : ∀ p ∈ cfg.mazeList, Q p

/-- The cells inside the outermost ring: rows 1 to `rows - 2`, columns 1 to `cols - 2`. -/
def Interior (graph : Graph) (p : Coord) : Prop :=
  1 ≤ p.1 ∧ p.1 ≤ (graph.rows : Int) - 2 ∧ 1 ≤ p.2 ∧ p.2 ≤ (graph.cols : Int) - 2

/-- A cell with odd row and odd column. -/
def OddCell (p : Coord) : Prop :=
  p.1 % 2 = 1 ∧ p.2 % 2 = 1

/-- A cell with even row and even column. -/
def EvenCell (p : Coord) : Prop :=
  p.1 % 2 = 0 ∧ p.2 % 2 = 0

instance (graph : Graph) (p : Coord) : Decidable (Interior graph p) := by
  unfold Interior; infer_instance

instance (p : Coord) : Decidable (OddCell p) := by
  unfold OddCell; infer_instance

instance (p : Coord) : Decidable (EvenCell p) := by
  unfold EvenCell; infer_instance

/-- The 5x5 grid with the odd start (1,1) and end (3,3). -/
def maze5odd : Maze := ⟨⟨5, 5⟩, ⟨1, 1⟩, ⟨3, 3⟩⟩

/-- The 4x6 grid with start (1,2) and end (3,5). -/
def maze46 : Maze := ⟨⟨4, 6⟩, ⟨1, 2⟩, ⟨3, 5⟩⟩

/-- The 3x3 grid with a start outside the grid, (4,6), and end (2,2). -/
def maze3far : Maze := ⟨⟨3, 3⟩, ⟨4, 6⟩, ⟨2, 2⟩⟩

/-! ## Theorems -/

/-! ## The body of one call -/

theorem mem_getUnvisitedNeighbors (graph : Graph) (c : Coord) (visited : List Coord)
    (q : Coord) :
    q ∈ getUnvisitedNeighbors graph c visited ↔ Nbr graph c q ∧ q ∉ visited := by
  unfold getUnvisitedNeighbors Nbr
  simp only [List.mem_filter, decide_eq_true_eq]
  by_cases h1 : c.2 < (graph.cols : Int) - 2 <;> by_cases h2 : c.1 < (graph.rows : Int) - 2 <;>
    by_cases h3 : c.2 > 1 <;> by_cases h4 : c.1 > 1 <;>
    simp [h1, h2, h3, h4]

theorem getLast?_mem_of_perm {sh : Shuffle} (hsh : PermShuffle sh) (k : Nat)
    (l : List Coord) (n : Coord) (h : (sh k l).getLast? = some n) : n ∈ l :=
  (hsh k l).mem_iff.mp (List.mem_of_getLast?_eq_some h)

theorem getLast?_isSome_of_perm {sh : Shuffle} (hsh : PermShuffle sh) (k : Nat)
    (l : List Coord) (h : l ≠ []) : ∃ n, (sh k l).getLast? = some n := by
  have hne : sh k l ≠ [] := by
    intro h0
    have := (hsh k l).length_eq
    rw [h0] at this
    exact h (List.length_eq_zero.mp this.symm)
  exact ⟨(sh k l).getLast hne, List.getLast?_eq_getLast _ hne⟩

/-- The two ways a call of `dfs` calls `dfs` again: backtracking or stepping forward. -/
theorem calls_cases {graph : Graph} {sh : Shuffle} {a b : Cfg}
    (h : Calls graph sh a b) :
    ∃ c rest, a.stack = c :: rest ∧
      ((getUnvisitedNeighbors graph c (c :: a.visited) = [] ∧ rest ≠ [] ∧
          b = ⟨rest, c :: a.visited, a.mazeList ++ [c], a.shuffles⟩) ∨
       (∃ n, getUnvisitedNeighbors graph c (c :: a.visited) ≠ [] ∧
          (sh a.shuffles (getUnvisitedNeighbors graph c (c :: a.visited))).getLast? = some n ∧
          b = ⟨n :: c :: rest, getInBetweenNodes c n :: c :: a.visited,
            a.mazeList ++ [c] ++ [getInBetweenNodes c n], a.shuffles + 1⟩)) := by
  unfold Calls dfsStep at h
  split at h
  · exact absurd h (by simp)
  · rename_i c rest hs
    refine ⟨c, rest, hs, ?_⟩
    simp only [List.length_eq_zero] at h
    split_ifs at h with h1 h2
    · left
      refine ⟨h1, h2, ?_⟩
      exact (Step.recurse.inj h).symm
    · right
      split at h
      · exact absurd h (by simp)
      · rename_i n hn
        exact ⟨n, h1, hn, (Step.recurse.inj h).symm⟩

/-- The only way a call of `dfs` returns. -/
theorem finish_cases {graph : Graph} {sh : Shuffle} {a b : Cfg}
    (h : dfsStep graph sh a = Step.finish b) :
    ∃ c, a.stack = [c] ∧ getUnvisitedNeighbors graph c (c :: a.visited) = [] ∧
      b = ⟨[], c :: a.visited, a.mazeList ++ [c], a.shuffles⟩ := by
  unfold dfsStep at h
  split at h
  · exact absurd h (by simp)
  · rename_i c rest hs
    simp only [List.length_eq_zero] at h
    split_ifs at h with h1 h2
    · subst h2
      exact ⟨c, hs, h1, (Step.finish.inj h).symm⟩
    · split at h <;> exact absurd h (by simp)

/-! ## Geometry of one step -/

theorem nbr_real {graph : Graph} {c n : Coord} (hc : RealCell graph c)
    (h : Nbr graph c n) : RealCell graph n := by
  obtain ⟨⟨h1, h2, h3, h4⟩, h5, h6⟩ := hc
  unfold RealCell InGrid
  rcases h with ⟨rfl, h⟩ | ⟨rfl, h⟩ | ⟨rfl, h⟩ | ⟨rfl, h⟩ <;>
    refine ⟨⟨?_, ?_, ?_, ?_⟩, ?_, ?_⟩ <;> simp only <;> omega

theorem nbr_ne {graph : Graph} {c n : Coord} (h : Nbr graph c n) : n ≠ c := by
  rcases h with ⟨rfl, _⟩ | ⟨rfl, _⟩ | ⟨rfl, _⟩ | ⟨rfl, _⟩ <;>
    intro h0 <;> have h1 := congrArg Prod.fst h0 <;> have h2 := congrArg Prod.snd h0 <;>
    simp only at h1 h2 <;> omega

/-- The in-between node of a cell and one of its candidates, coordinate by coordinate. -/
theorem inBetween_of_nbr {graph : Graph} {c n : Coord} (h : Nbr graph c n) :
    ((getInBetweenNodes c n).1 = c.1 ∧ n.1 = c.1 ∧
      ((n.2 = c.2 + 2 ∧ (getInBetweenNodes c n).2 = c.2 + 1) ∨
       (n.2 = c.2 - 2 ∧ (getInBetweenNodes c n).2 = c.2 - 1))) ∨
    ((getInBetweenNodes c n).2 = c.2 ∧ n.2 = c.2 ∧
      ((n.1 = c.1 + 2 ∧ (getInBetweenNodes c n).1 = c.1 + 1) ∨
       (n.1 = c.1 - 2 ∧ (getInBetweenNodes c n).1 = c.1 - 1))) := by
  unfold getInBetweenNodes
  rcases h with ⟨rfl, _⟩ | ⟨rfl, _⟩ | ⟨rfl, _⟩ | ⟨rfl, _⟩
  · exact Or.inl ⟨by simp only; omega, rfl, Or.inl ⟨rfl, by simp only; omega⟩⟩
  · exact Or.inr ⟨by simp only; omega, rfl, Or.inl ⟨rfl, by simp only; omega⟩⟩
  · exact Or.inl ⟨by simp only; omega, rfl, Or.inr ⟨rfl, by simp only; omega⟩⟩
  · exact Or.inr ⟨by simp only; omega, rfl, Or.inr ⟨rfl, by simp only; omega⟩⟩

theorem inBetween_grid {graph : Graph} {c n : Coord} (hc : RealCell graph c)
    (h : Nbr graph c n) :
    InGrid graph (getInBetweenNodes c n) ∧ InBetween (getInBetweenNodes c n) := by
  have hn := nbr_real hc h
  have hm := inBetween_of_nbr h
  obtain ⟨⟨h1, h2, h3, h4⟩, h5, h6⟩ := hc
  obtain ⟨⟨k1, k2, k3, k4⟩, k5, k6⟩ := hn
  unfold InGrid InBetween
  constructor
  · refine ⟨?_, ?_, ?_, ?_⟩ <;> omega
  · omega

/-- The even-even cells that touch the in-between node are the two cells it joins. -/
theorem touches_inBetween {graph : Graph} {c n q : Coord} (hc : RealCell graph c)
    (h : Nbr graph c n) (hq : Touches (getInBetweenNodes c n) q)
    (h1 : q.1 % 2 = 0) (h2 : q.2 % 2 = 0) : q = c ∨ q = n := by
  have hm := inBetween_of_nbr h
  obtain ⟨_, h5, h6⟩ := hc
  unfold Touches at hq
  have : (q.1 = c.1 ∧ q.2 = c.2) ∨ (q.1 = n.1 ∧ q.2 = n.2) := by omega
  rcases this with ⟨a, b⟩ | ⟨a, b⟩
  · left; exact Prod.ext a b
  · right; exact Prod.ext a b

theorem touches_real_odd {graph : Graph} {c q : Coord} (hc : RealCell graph c)
    (hq : Touches c q) : ¬ (q.1 % 2 = 0 ∧ q.2 % 2 = 0) := by
  obtain ⟨_, h5, h6⟩ := hc
  unfold Touches at hq
  omega

theorem real_not_inBetween {graph : Graph} {p : Coord} (hp : RealCell graph p) :
    ¬ InBetween p := by
  obtain ⟨_, h5, h6⟩ := hp
  unfold InBetween
  omega

/-! ## The invariant of the traversal -/

theorem inv_init {graph : Graph} {start : Coord} (hs : RealCell graph start) :
    Inv graph start (initCfg start) where
  stack_ne := by simp [initCfg]
  stack_real := by simp [initCfg, hs]
  stack_last := by simp [initCfg]
  below := by simp [initCfg]
  stack_nodup := by simp [initCfg]
  visited_iff := by simp [initCfg]
  visited_kind := by simp [initCfg]
  closed := by simp [initCfg]
  flank := by simp [initCfg]

/-- What a forward step knows about the chosen neighbor. -/
theorem forward_facts {graph : Graph} {sh : Shuffle} (hsh : PermShuffle sh) {start : Coord}
    {a : Cfg} (hI : Inv graph start a) {c n : Coord} {rest : List Coord}
    (hs : a.stack = c :: rest)
    (hn : (sh a.shuffles (getUnvisitedNeighbors graph c (c :: a.visited))).getLast? =
      some n) :
    Nbr graph c n ∧ n ≠ c ∧ n ∉ a.visited ∧ n ∉ a.stack ∧ RealCell graph c ∧
      RealCell graph n ∧ getInBetweenNodes c n ∉ a.visited := by
  have hmem := getLast?_mem_of_perm hsh _ _ _ hn
  rw [mem_getUnvisitedNeighbors] at hmem
  obtain ⟨hnbr, hnv⟩ := hmem
  have hnc : n ≠ c := fun h => hnv (h ▸ List.mem_cons_self _ _)
  have hnv2 : n ∉ a.visited := fun h => hnv (List.mem_cons_of_mem _ h)
  have hc : RealCell graph c := hI.stack_real c (hs ▸ List.mem_cons_self _ _)
  have hns : n ∉ a.stack := by
    rw [hs]
    intro h
    rcases List.mem_cons.mp h with h | h
    · exact hnc h
    · exact hnv2 (hI.below n (by rw [hs]; exact h))
  refine ⟨hnbr, hnc, hnv2, hns, hc, nbr_real hc hnbr, ?_⟩
  intro hm
  have ht : Touches (getInBetweenNodes c n) n := by
    have := inBetween_of_nbr hnbr
    unfold Touches
    omega
  have hr := nbr_real hc hnbr
  rcases hI.flank _ hm n ht hr.2.1 hr.2.2 with h | h
  · exact hnv2 h
  · exact hns h

theorem inv_step {graph : Graph} {sh : Shuffle} (hsh : PermShuffle sh) {start : Coord}
    {a b : Cfg} (hI : Inv graph start a) (h : Calls graph sh a b) : Inv graph start b := by
  obtain ⟨c, rest, hs, hcase⟩ := calls_cases h
  have hc : RealCell graph c := hI.stack_real c (hs ▸ List.mem_cons_self _ _)
  have hrest : ∀ p ∈ rest, p ∈ a.visited := fun p hp => hI.below p (by rw [hs]; exact hp)
  rcases hcase with ⟨hunv, hne, rfl⟩ | ⟨n, _, hn, rfl⟩
  · -- backtracking
    have hfin : ∀ q, Nbr graph c q → q ∈ c :: a.visited := by
      intro q hq
      by_contra hqv
      have : q ∈ getUnvisitedNeighbors graph c (c :: a.visited) :=
        (mem_getUnvisitedNeighbors _ _ _ _).mpr ⟨hq, hqv⟩
      rw [hunv] at this
      exact absurd this (List.not_mem_nil _)
    have hnd := hI.stack_nodup
    rw [hs] at hnd
    refine ⟨hne, ?_, ?_, ?_, ?_, ?_, ?_, ?_, ?_⟩
    · exact fun p hp => hI.stack_real p (by rw [hs]; exact List.mem_cons_of_mem _ hp)
    · have := hI.stack_last
      rw [hs] at this
      obtain ⟨r, rs, rfl⟩ := List.exists_cons_of_ne_nil hne
      simpa using this
    · exact fun p hp => List.mem_cons_of_mem _ (hrest p (List.mem_of_mem_tail hp))
    · exact (List.nodup_cons.mp hnd).2
    · intro p
      simp only [List.mem_cons, List.mem_append, List.mem_singleton, hI.visited_iff p]
      tauto
    · intro p hp
      rcases List.mem_cons.mp hp with rfl | hp
      · exact Or.inl hc
      · exact hI.visited_kind p hp
    · intro p hp hpr hps q hq
      rcases List.mem_cons.mp hp with rfl | hp
      · exact hfin q hq
      · by_cases hpc : p = c
        · subst hpc; exact hfin q hq
        · refine List.mem_cons_of_mem _ (hI.closed p hp hpr ?_ q hq)
          rw [hs]
          simp only [List.mem_cons, not_or]
          exact ⟨hpc, hps⟩
    · intro m hm q hq h1 h2
      rcases List.mem_cons.mp hm with rfl | hm
      · exact absurd ⟨h1, h2⟩ (touches_real_odd hc hq)
      · rcases hI.flank m hm q hq h1 h2 with h | h
        · exact Or.inl (List.mem_cons_of_mem _ h)
        · rw [hs] at h
          rcases List.mem_cons.mp h with rfl | h
          · exact Or.inl (List.mem_cons_self _ _)
          · exact Or.inr h
  · -- stepping forward
    obtain ⟨hnbr, hnc, hnv, hns, _, hnr, hmv⟩ := forward_facts hsh hI hs hn
    have hmk := inBetween_grid hc hnbr
    refine ⟨by simp, ?_, ?_, ?_, ?_, ?_, ?_, ?_, ?_⟩
    · intro p hp
      rcases List.mem_cons.mp hp with rfl | hp
      · exact hnr
      · exact hI.stack_real p (by rw [hs]; exact hp)
    · have := hI.stack_last
      rw [hs] at this
      simpa using this
    · intro p hp
      simp only [List.tail_cons] at hp
      rcases List.mem_cons.mp hp with rfl | hp
      · exact List.mem_cons_of_mem _ (List.mem_cons_self _ _)
      · exact List.mem_cons_of_mem _ (List.mem_cons_of_mem _ (hrest p hp))
    · have hnd := hI.stack_nodup
      rw [hs] at hnd hns
      exact List.nodup_cons.mpr ⟨hns, hnd⟩
    · intro p
      simp only [List.mem_cons, List.mem_append, List.mem_singleton, hI.visited_iff p]
      tauto
    · intro p hp
      rcases List.mem_cons.mp hp with rfl | hp
      · exact Or.inr hmk
      · rcases List.mem_cons.mp hp with rfl | hp
        · exact Or.inl hc
        · exact hI.visited_kind p hp
    · intro p hp hpr hps q hq
      simp only [List.mem_cons, not_or] at hps
      rcases List.mem_cons.mp hp with rfl | hp
      · exact absurd hmk.2 (real_not_inBetween hpr)
      · rcases List.mem_cons.mp hp with rfl | hp
        · exact absurd rfl hps.2.1
        · refine List.mem_cons_of_mem _ (List.mem_cons_of_mem _ (hI.closed p hp hpr ?_ q hq))
          rw [hs]
          simp only [List.mem_cons, not_or]
          exact ⟨hps.2.1, hps.2.2⟩
    · intro m hm q hq h1 h2
      rcases List.mem_cons.mp hm with rfl | hm
      · rcases touches_inBetween hc hnbr hq h1 h2 with rfl | rfl
        · exact Or.inr (List.mem_cons_of_mem _ (List.mem_cons_self _ _))
        · exact Or.inr (List.mem_cons_self _ _)
      · rcases List.mem_cons.mp hm with rfl | hm
        · exact absurd ⟨h1, h2⟩ (touches_real_odd hc hq)
        · rcases hI.flank m hm q hq h1 h2 with h | h
          · exact Or.inl (List.mem_cons_of_mem _ (List.mem_cons_of_mem _ h))
          · rw [hs] at h
            exact Or.inr (List.mem_cons_of_mem _ h)

theorem inv_reaches {graph : Graph} {sh : Shuffle} (hsh : PermShuffle sh) {start : Coord}
    {a b : Cfg} (hI : Inv graph start a) (h : Reaches graph sh a b) : Inv graph start b := by
  induction h with
  | refl => exact hI
  | tail _ hstep ih => exact inv_step hsh ih hstep

/-! ## Counting real cells -/

theorem mem_realCells (graph : Graph) (p : Coord) :
    p ∈ realCells graph ↔ RealCell graph p := by
  unfold realCells RealCell InGrid
  simp only [Finset.mem_image, Finset.mem_product, Finset.mem_range, Prod.exists]
  constructor
  · rintro ⟨i, j, ⟨hi, hj⟩, rfl⟩
    simp only
    omega
  · rintro ⟨⟨h1, h2, h3, h4⟩, h5, h6⟩
    refine ⟨(p.1 / 2).toNat, (p.2 / 2).toNat, ⟨?_, ?_⟩, ?_⟩
    · omega
    · omega
    · apply Prod.ext <;> simp only <;> omega

theorem card_realCells (graph : Graph) : (realCells graph).card = numReal graph := by
  unfold realCells numReal
  rw [Finset.card_image_of_injective, Finset.card_product, Finset.card_range,
    Finset.card_range]
  intro a b h
  have h1 := congrArg Prod.fst h
  have h2 := congrArg Prod.snd h
  simp only at h1 h2
  apply Prod.ext <;> omega

/-- A call that calls `dfs` again either steps forward (one more real cell reached, stack
one longer, two more entries recorded) or backtracks (stack one shorter, one more entry). -/
theorem step_progress {graph : Graph} {sh : Shuffle} (hsh : PermShuffle sh) {start : Coord}
    {a b : Cfg} (hI : Inv graph start a) (h : Calls graph sh a b) :
    (b.stack.length = a.stack.length + 1 ∧ b.mazeList.length = a.mazeList.length + 2 ∧
      (unvisitedReal graph b).card + 1 = (unvisitedReal graph a).card) ∨
    (b.stack.length + 1 = a.stack.length ∧ b.mazeList.length = a.mazeList.length + 1 ∧
      (unvisitedReal graph b).card = (unvisitedReal graph a).card) := by
  obtain ⟨c, rest, hs, hcase⟩ := calls_cases h
  have hc : RealCell graph c := hI.stack_real c (hs ▸ List.mem_cons_self _ _)
  rcases hcase with ⟨_, _, rfl⟩ | ⟨n, _, hn, rfl⟩
  · right
    refine ⟨by simp [hs], by simp, ?_⟩
    congr 1
    unfold unvisitedReal
    apply Finset.filter_congr
    intro p _
    simp only [hs, List.mem_cons, not_or]
    tauto
  · left
    obtain ⟨hnbr, hnc, hnv, hns, _, hnr, hmv⟩ := forward_facts hsh hI hs hn
    have hmk := inBetween_grid hc hnbr
    refine ⟨by simp [hs], by simp, ?_⟩
    have hmem : n ∈ unvisitedReal graph a := by
      unfold unvisitedReal
      rw [Finset.mem_filter, mem_realCells]
      exact ⟨hnr, hnv, hns⟩
    have heq : unvisitedReal graph ⟨n :: c :: rest, getInBetweenNodes c n :: c :: a.visited,
        a.mazeList ++ [c] ++ [getInBetweenNodes c n], a.shuffles + 1⟩ =
        (unvisitedReal graph a).erase n := by
      ext p
      unfold unvisitedReal
      simp only [Finset.mem_filter, Finset.mem_erase, mem_realCells, hs, List.mem_cons,
        not_or]
      constructor
      · rintro ⟨hp, ⟨_, h2, h3⟩, h4, h5, h6⟩
        exact ⟨h4, hp, h3, h5, h6⟩
      · rintro ⟨h4, hp, h3, h5, h6⟩
        refine ⟨hp, ⟨?_, h5, h3⟩, h4, h5, h6⟩
        intro hpm
        exact real_not_inBetween hp (hpm ▸ hmk.2)
    rw [heq, Finset.card_erase_of_mem hmem]
    have := Finset.card_pos.mpr ⟨n, hmem⟩
    omega

theorem measure_decreases {graph : Graph} {sh : Shuffle} (hsh : PermShuffle sh)
    {start : Coord} {a b : Cfg} (hI : Inv graph start a) (h : Calls graph sh a b) :
    dfsMeasure graph b < dfsMeasure graph a := by
  unfold dfsMeasure
  rcases step_progress hsh hI h with ⟨h1, _, h3⟩ | ⟨h1, _, h3⟩ <;> omega

/-- Under the invariant a call of `dfs` does not raise. -/
theorem step_not_throws {graph : Graph} {sh : Shuffle} (hsh : PermShuffle sh)
    {start : Coord} {a : Cfg} (hI : Inv graph start a) :
    dfsStep graph sh a ≠ Step.throws := by
  obtain ⟨c, rest, hs⟩ := List.exists_cons_of_ne_nil hI.stack_ne
  unfold dfsStep
  rw [hs]
  simp only [List.length_eq_zero]
  split_ifs with h1 h2
  · simp
  · simp
  · obtain ⟨n, hn⟩ := getLast?_isSome_of_perm hsh a.shuffles _ h1
    rw [hn]
    simp

/-- With more calls allowed than the measure, `dfs` returns, from data reached by calls. -/
theorem dfs_returns {graph : Graph} {sh : Shuffle} (hsh : PermShuffle sh) {start : Coord} :
    ∀ (fuel : Nat) (a : Cfg), Inv graph start a → dfsMeasure graph a ≤ fuel →
      ∃ last final, Reaches graph sh a last ∧ dfsStep graph sh last = Step.finish final ∧
        dfs graph sh fuel a = Outcome.returned final := by
  intro fuel
  induction fuel with
  | zero =>
    intro a hI hm
    have := List.length_pos.mpr hI.stack_ne
    unfold dfsMeasure at hm
    omega
  | succ fuel ih =>
    intro a hI hm
    cases hstep : dfsStep graph sh a with
    | recurse b =>
      have hlt := measure_decreases hsh hI hstep
      obtain ⟨last, final, hr, hf, hd⟩ := ih b (inv_step hsh hI hstep) (by omega)
      refine ⟨last, final, Relation.ReflTransGen.head hstep hr, hf, ?_⟩
      simp only [dfs, hstep, hd]
    | finish final =>
      exact ⟨a, final, Relation.ReflTransGen.refl, hstep, by simp only [dfs, hstep]⟩
    | throws => exact absurd hstep (step_not_throws hsh hI)

/-! ## Walking along the lattice of real cells -/

theorem nbr_of_step {graph : Graph} {p q : Coord} (hq : RealCell graph q)
    (h : (q.1 = p.1 ∧ (q.2 = p.2 + 2 ∨ q.2 = p.2 - 2)) ∨
      (q.2 = p.2 ∧ (q.1 = p.1 + 2 ∨ q.1 = p.1 - 2))) : Nbr graph p q := by
  obtain ⟨⟨h1, h2, h3, h4⟩, _, _⟩ := hq
  unfold Nbr
  rcases h with ⟨a, b | b⟩ | ⟨a, b | b⟩
  · exact Or.inl ⟨Prod.ext a b, by omega⟩
  · exact Or.inr (Or.inr (Or.inl ⟨Prod.ext a b, by omega⟩))
  · exact Or.inr (Or.inl ⟨Prod.ext b a, by omega⟩)
  · exact Or.inr (Or.inr (Or.inr ⟨Prod.ext b a, by omega⟩))

/-- A closed set that holds a real cell holds the real cells on a straight line from it, as
far as the cells passed are allowed. -/
theorem walk_line {graph : Graph} {A S : Coord → Prop} (hcl : ClosedIn graph A S)
    (d : Coord) (hd : IsDir d) :
    ∀ (k : Nat) (p : Coord), S p → RealCell graph p →
      RealCell graph (p.1 + k * d.1, p.2 + k * d.2) →
      (∀ j : Nat, 1 ≤ j → j ≤ k → A (p.1 + j * d.1, p.2 + j * d.2)) →
      S (p.1 + k * d.1, p.2 + k * d.2) := by
  intro k
  induction k with
  | zero =>
    intro p hS _ _ _
    have : (p.1 + ((0 : Nat) : Int) * d.1, p.2 + ((0 : Nat) : Int) * d.2) = p := by
      apply Prod.ext <;> simp
    rw [this]
    exact hS
  | succ k ih =>
    intro p hS hp ht hA
    have hmid : RealCell graph (p.1 + k * d.1, p.2 + k * d.2) := by
      unfold RealCell InGrid at hp ht ⊢
      rcases hd with rfl | rfl | rfl | rfl <;> simp only at ht ⊢ <;>
        push_cast at ht ⊢ <;> omega
    have hSmid := ih p hS hp hmid (fun j h1 h2 => hA j h1 (by omega))
    refine hcl _ _ hSmid hmid (nbr_of_step ht ?_) (hA (k + 1) (by omega) le_rfl)
    rcases hd with rfl | rfl | rfl | rfl <;> simp only <;> push_cast <;> omega

/-- From a real cell to any real cell of the same row. -/
theorem walk_row {graph : Graph} {A S : Coord → Prop} (hcl : ClosedIn graph A S)
    {p : Coord} (hS : S p) (hp : RealCell graph p) {y : Int}
    (hq : RealCell graph (p.1, y))
    (hA : ∀ z, (p.2 < z ∧ z ≤ y) ∨ (y ≤ z ∧ z < p.2) → z % 2 = 0 → A (p.1, z)) :
    S (p.1, y) := by
  have hp2 := hp.2.2
  have hy2 := hq.2.2
  simp only at hy2
  rcases le_total p.2 y with h | h
  · have := walk_line hcl (0, 2) (Or.inl rfl) ((y - p.2) / 2).toNat p hS hp
    have e : (p.1 + (((y - p.2) / 2).toNat : Int) * ((0, 2) : Coord).1,
        p.2 + (((y - p.2) / 2).toNat : Int) * ((0, 2) : Coord).2) = (p.1, y) := by
      apply Prod.ext <;> simp only <;> omega
    rw [e] at this
    refine this hq ?_
    intro j h1 h2
    have e2 : (p.1 + (j : Int) * ((0, 2) : Coord).1, p.2 + (j : Int) * ((0, 2) : Coord).2) =
        (p.1, p.2 + 2 * j) := by
      apply Prod.ext <;> simp only <;> omega
    rw [e2]
    exact hA _ (Or.inl (by omega)) (by omega)
  · have := walk_line hcl (0, -2) (Or.inr (Or.inr (Or.inl rfl))) ((p.2 - y) / 2).toNat p hS hp
    have e : (p.1 + (((p.2 - y) / 2).toNat : Int) * ((0, -2) : Coord).1,
        p.2 + (((p.2 - y) / 2).toNat : Int) * ((0, -2) : Coord).2) = (p.1, y) := by
      apply Prod.ext <;> simp only <;> omega
    rw [e] at this
    refine this hq ?_
    intro j h1 h2
    have e2 : (p.1 + (j : Int) * ((0, -2) : Coord).1, p.2 + (j : Int) * ((0, -2) : Coord).2) =
        (p.1, p.2 - 2 * j) := by
      apply Prod.ext <;> simp only <;> omega
    rw [e2]
    exact hA _ (Or.inr (by omega)) (by omega)

/-- From a real cell to any real cell of the same column. -/
theorem walk_col {graph : Graph} {A S : Coord → Prop} (hcl : ClosedIn graph A S)
    {p : Coord} (hS : S p) (hp : RealCell graph p) {x : Int}
    (hq : RealCell graph (x, p.2))
    (hA : ∀ z, (p.1 < z ∧ z ≤ x) ∨ (x ≤ z ∧ z < p.1) → z % 2 = 0 → A (z, p.2)) :
    S (x, p.2) := by
  have hp1 := hp.2.1
  have hx1 := hq.2.1
  simp only at hx1
  rcases le_total p.1 x with h | h
  · have := walk_line hcl (2, 0) (Or.inr (Or.inl rfl)) ((x - p.1) / 2).toNat p hS hp
    have e : (p.1 + (((x - p.1) / 2).toNat : Int) * ((2, 0) : Coord).1,
        p.2 + (((x - p.1) / 2).toNat : Int) * ((2, 0) : Coord).2) = (x, p.2) := by
      apply Prod.ext <;> simp only <;> omega
    rw [e] at this
    refine this hq ?_
    intro j h1 h2
    have e2 : (p.1 + (j : Int) * ((2, 0) : Coord).1, p.2 + (j : Int) * ((2, 0) : Coord).2) =
        (p.1 + 2 * j, p.2) := by
      apply Prod.ext <;> simp only <;> omega
    rw [e2]
    exact hA _ (Or.inl (by omega)) (by omega)
  · have := walk_line hcl (-2, 0) (Or.inr (Or.inr (Or.inr rfl))) ((p.1 - x) / 2).toNat p hS hp
    have e : (p.1 + (((p.1 - x) / 2).toNat : Int) * ((-2, 0) : Coord).1,
        p.2 + (((p.1 - x) / 2).toNat : Int) * ((-2, 0) : Coord).2) = (x, p.2) := by
      apply Prod.ext <;> simp only <;> omega
    rw [e] at this
    refine this hq ?_
    intro j h1 h2
    have e2 : (p.1 + (j : Int) * ((-2, 0) : Coord).1, p.2 + (j : Int) * ((-2, 0) : Coord).2) =
        (p.1 - 2 * j, p.2) := by
      apply Prod.ext <;> simp only <;> omega
    rw [e2]
    exact hA _ (Or.inr (by omega)) (by omega)

/-- The lattice of real cells is connected: a closed set that holds one real cell holds
them all. -/
theorem closed_covers {graph : Graph} {S : Coord → Prop}
    (hcl : ClosedIn graph (fun _ => True) S) {s : Coord} (hs : RealCell graph s) (hS : S s)
    {p : Coord} (hp : RealCell graph p) : S p := by
  have hmid : RealCell graph (s.1, p.2) :=
    ⟨⟨hs.1.1, hs.1.2.1, hp.1.2.2.1, hp.1.2.2.2⟩, hs.2.1, hp.2.2⟩
  have h1 : S (s.1, p.2) := walk_row hcl hS hs hmid (fun _ _ _ => trivial)
  exact walk_col (p := (s.1, p.2)) hcl h1 hmid (x := p.1) hp (fun _ _ _ => trivial)

/-! ## The last call and the whole run -/

/-- The last call pops the start, and by then every real cell is marked visited. -/
theorem final_facts {graph : Graph} {sh : Shuffle} {start : Coord} {last final : Cfg}
    (hI : Inv graph start last) (hf : dfsStep graph sh last = Step.finish final) :
    last.stack = [start] ∧
      final = ⟨[], start :: last.visited, last.mazeList ++ [start], last.shuffles⟩ ∧
      (∀ p, RealCell graph p → p ∈ final.visited) ∧
      (∀ p, p ∈ final.visited ↔ p ∈ final.mazeList) := by
  obtain ⟨c, hs, hunv, rfl⟩ := finish_cases hf
  have hc : c = start := by
    have := hI.stack_last
    rw [hs] at this
    simpa using this
  subst hc
  have hcr : RealCell graph c := hI.stack_real c (hs ▸ List.mem_cons_self _ _)
  refine ⟨hs, rfl, ?_, ?_⟩
  · intro p hp
    have hcl : ClosedIn graph (fun _ => True) (fun q => q ∈ c :: last.visited) := by
      intro x y hx hxr hxy _
      by_cases hxc : x = c
      · subst hxc
        by_contra hyv
        have : y ∈ getUnvisitedNeighbors graph x (x :: last.visited) :=
          (mem_getUnvisitedNeighbors _ _ _ _).mpr ⟨hxy, hyv⟩
        rw [hunv] at this
        exact absurd this (List.not_mem_nil _)
      · have hxv : x ∈ last.visited := by
          rcases List.mem_cons.mp hx with h | h
          · exact absurd h hxc
          · exact h
        refine List.mem_cons_of_mem _ (hI.closed x hxv hxr ?_ y hxy)
        rw [hs]
        simpa using hxc
    exact closed_covers hcl hcr (List.mem_cons_self _ _) hp
  · intro p
    simp only [List.mem_cons, List.mem_append, List.mem_singleton, hI.visited_iff p]
    tauto

theorem dfs_fuel_mono {graph : Graph} {sh : Shuffle} {final : Cfg} :
    ∀ (fuel : Nat) (a : Cfg) (more : Nat), dfs graph sh fuel a = Outcome.returned final →
      dfs graph sh (fuel + more) a = Outcome.returned final := by
  intro fuel
  induction fuel with
  | zero => intro a more h; simp [dfs] at h
  | succ fuel ih =>
    intro a more h
    rw [Nat.add_right_comm]
    simp only [dfs] at h ⊢
    cases hstep : dfsStep graph sh a with
    | recurse b =>
      rw [hstep] at h
      simp only at h ⊢
      exact ih b more h
    | finish f =>
      rw [hstep] at h
      exact h
    | throws =>
      rw [hstep] at h
      simp at h

theorem measure_init {graph : Graph} {start : Coord} (hs : RealCell graph start) :
    dfsMeasure graph (initCfg start) + 1 = 2 * numReal graph := by
  have hmem : start ∈ realCells graph := (mem_realCells _ _).mpr hs
  have heq : unvisitedReal graph (initCfg start) = (realCells graph).erase start := by
    ext p
    unfold unvisitedReal initCfg
    simp only [Finset.mem_filter, Finset.mem_erase, List.not_mem_nil, not_false_eq_true,
      List.mem_singleton, true_and]
    tauto
  have hpos := Finset.card_pos.mpr ⟨start, hmem⟩
  unfold dfsMeasure
  rw [heq, Finset.card_erase_of_mem hmem, card_realCells] at *
  simp only [initCfg, List.length_singleton]
  omega

/-- The shape of every run from a real start under a permuting shuffle: a chain of calls
to a last call that returns, reached whenever `2 * V - 1` calls are allowed. -/
theorem run_final {graph : Graph} {sh : Shuffle} (hsh : PermShuffle sh) {start : Coord}
    (hs : RealCell graph start) :
    ∃ last final, Reaches graph sh (initCfg start) last ∧ Inv graph start last ∧
      dfsStep graph sh last = Step.finish final ∧
      ∀ fuel, 2 * numReal graph ≤ fuel + 1 →
        dfs graph sh fuel (initCfg start) = Outcome.returned final := by
  have hm := measure_init hs
  obtain ⟨last, final, hr, hf, hd⟩ :=
    dfs_returns hsh (dfsMeasure graph (initCfg start)) (initCfg start) (inv_init hs) le_rfl
  refine ⟨last, final, hr, inv_reaches hsh (inv_init hs) hr, hf, ?_⟩
  intro fuel hfuel
  obtain ⟨more, rfl⟩ := Nat.exists_eq_add_of_le (show dfsMeasure graph (initCfg start) ≤ fuel
    by omega)
  exact dfs_fuel_mono _ _ more hd

theorem permShuffle_id : PermShuffle idShuffle := fun _ l => List.Perm.refl l

theorem permShuffle_rev : PermShuffle revShuffle := fun _ l => List.reverse_perm l

/-- The run of `runMaze` in terms of the run of `dfs`. -/
theorem run_shape {self : Maze} {sh : Shuffle} (hsh : PermShuffle sh)
    (hs : ValidStart self) :
    ∃ last final, Reaches self.graph sh (initCfg self.start) last ∧
      Inv self.graph self.start last ∧
      dfsStep self.graph sh last = Step.finish final ∧
      (∀ fuel, 2 * numReal self.graph ≤ fuel + 1 →
        runMaze self sh fuel = Outcome.returned final.mazeList.tail.dropLast) ∧
      (∀ fuel, 2 * numReal self.graph ≤ fuel + 1 →
        recorded self sh fuel = Outcome.returned final.mazeList) ∧
      (∀ fuel, 2 * numReal self.graph ≤ fuel + 1 →
        dfs self.graph sh fuel (initCfg self.start) = Outcome.returned final) := by
  obtain ⟨last, final, hr, hI, hf, hd⟩ := @run_final self.graph sh hsh (self.startNode.row, self.startNode.column) hs
  refine ⟨last, final, hr, hI, hf, ?_, ?_, hd⟩
  · intro fuel hfuel
    have := hd fuel hfuel
    unfold runMaze
    simp only
    rw [this]
  · intro fuel hfuel
    have := hd fuel hfuel
    unfold recorded
    rw [this]

/-- The entries recorded so far, the stack and the real cells not reached yet add up. -/
theorem count_reaches {graph : Graph} {sh : Shuffle} (hsh : PermShuffle sh) {start : Coord}
    (hs : RealCell graph start) {a : Cfg} (h : Reaches graph sh (initCfg start) a) :
    a.mazeList.length + a.stack.length + 2 + 3 * (unvisitedReal graph a).card =
      3 * numReal graph := by
  induction h with
  | refl =>
    have := measure_init hs
    unfold dfsMeasure at this
    simp only [initCfg, List.length_nil, List.length_singleton] at this ⊢
    omega
  | tail hr hstep ih =>
    have hI := inv_reaches hsh (inv_init hs) hr
    rcases step_progress hsh hI hstep with ⟨h1, h2, h3⟩ | ⟨h1, h2, h3⟩ <;> omega

theorem final_length {graph : Graph} {sh : Shuffle} (hsh : PermShuffle sh) {start : Coord}
    (hs : RealCell graph start) {last final : Cfg}
    (hr : Reaches graph sh (initCfg start) last)
    (hf : dfsStep graph sh last = Step.finish final) :
    final.mazeList.length + 2 = 3 * numReal graph := by
  have hI := inv_reaches hsh (inv_init hs) hr
  obtain ⟨hst, rfl, hcov, _⟩ := final_facts hI hf
  have hc := count_reaches hsh hs hr
  have hz : unvisitedReal graph last = ∅ := by
    unfold unvisitedReal
    rw [Finset.filter_eq_empty_iff]
    intro p hp
    have := hcov p ((mem_realCells _ _).mp hp)
    simp only [List.mem_cons] at this
    rw [hst]
    simp only [List.mem_singleton]
    tauto
  rw [hz, hst] at hc
  simp only [List.length_append, List.length_singleton, Finset.card_empty] at hc ⊢
  omega

/-- Around one removed cell the lattice of real cells is still connected, as soon as it
has two rows and two columns of real cells: a set closed under the candidates other than
`s` that holds a real cell other than `s` holds every real cell other than `s`. -/
theorem closed_covers_avoiding {graph : Graph} (h3r : 3 ≤ graph.rows)
    (h3c : 3 ≤ graph.cols) {S : Coord → Prop} {s : Coord}
    (hcl : ClosedIn graph (fun q => q ≠ s) S) {x : Coord} (hx : RealCell graph x)
    (hxS : S x) (hxs : x ≠ s) {p : Coord} (hp : RealCell graph p) (hps : p ≠ s) : S p := by
  have hxs2 : x.1 ≠ s.1 ∨ x.2 ≠ s.2 := by
    by_contra h
    push_neg at h
    exact hxs (Prod.ext h.1 h.2)
  have hps2 : p.1 ≠ s.1 ∨ p.2 ≠ s.2 := by
    by_contra h
    push_neg at h
    exact hps (Prod.ext h.1 h.2)
  obtain ⟨⟨x1, x2, x3, x4⟩, x5, x6⟩ := id hx
  obtain ⟨⟨p1, p2, p3, p4⟩, p5, p6⟩ := id hp
  have hne : ∀ (a b : Int), (a ≠ s.1 ∨ b ≠ s.2) → ((a, b) : Coord) ≠ s := by
    intro a b h heq
    rcases h with h | h
    · exact h (congrArg Prod.fst heq)
    · exact h (congrArg Prod.snd heq)
  have hcornerA : RealCell graph (x.1, p.2) := ⟨⟨x1, x2, p3, p4⟩, x5, p6⟩
  have hcornerB : RealCell graph (p.1, x.2) := ⟨⟨p1, p2, x3, x4⟩, p5, x6⟩
  by_cases hA : (s.1 = x.1 ∧ ((x.2 < s.2 ∧ s.2 ≤ p.2) ∨ (p.2 ≤ s.2 ∧ s.2 < x.2))) ∨
      (s.2 = p.2 ∧ ((x.1 < s.1 ∧ s.1 ≤ p.1) ∨ (p.1 ≤ s.1 ∧ s.1 < x.1)))
  · by_cases hB : (s.2 = x.2 ∧ ((x.1 < s.1 ∧ s.1 ≤ p.1) ∨ (p.1 ≤ s.1 ∧ s.1 < x.1))) ∨
        (s.1 = p.1 ∧ ((x.2 < s.2 ∧ s.2 ≤ p.2) ∨ (p.2 ≤ s.2 ∧ s.2 < x.2)))
    · have hcase : (x.1 = p.1 ∧ s.1 = x.1) ∨ (x.2 = p.2 ∧ s.2 = x.2) := by omega
      rcases hcase with ⟨e1, e2⟩ | ⟨e1, e2⟩
      · -- same row, the removed cell in between: pass through a row next to it
        obtain ⟨r, hr1, hr2, hr3⟩ : ∃ r : Int, (r = x.1 + 2 ∨ r = x.1 - 2) ∧ 0 ≤ r ∧
            r ≤ (graph.rows : Int) - 1 := by
          by_cases h : 2 ≤ x.1
          · exact ⟨x.1 - 2, Or.inr rfl, by omega, by omega⟩
          · exact ⟨x.1 + 2, Or.inl rfl, by omega, by omega⟩
        have hr5 : r % 2 = 0 := by omega
        have c1 : RealCell graph (r, x.2) := ⟨⟨hr2, hr3, x3, x4⟩, hr5, x6⟩
        have c2 : RealCell graph (r, p.2) := ⟨⟨hr2, hr3, p3, p4⟩, hr5, p6⟩
        have s1 : S (r, x.2) := walk_col hcl hxS hx c1
          (fun z hz _ => hne _ _ (Or.inl (by omega)))
        have s2 : S (r, p.2) := walk_row (p := (r, x.2)) hcl s1 c1 c2
          (fun z _ _ => hne _ _ (Or.inl (by simp only; omega)))
        exact walk_col (p := (r, p.2)) hcl s2 c2 (x := p.1) hp
          (fun z hz hz2 => by
            simp only at hz
            have : z = p.1 := by omega
            rw [this]
            exact hps)
      · -- same column, the removed cell in between: pass through a column next to it
        obtain ⟨r, hr1, hr2, hr3⟩ : ∃ r : Int, (r = x.2 + 2 ∨ r = x.2 - 2) ∧ 0 ≤ r ∧
            r ≤ (graph.cols : Int) - 1 := by
          by_cases h : 2 ≤ x.2
          · exact ⟨x.2 - 2, Or.inr rfl, by omega, by omega⟩
          · exact ⟨x.2 + 2, Or.inl rfl, by omega, by omega⟩
        have hr5 : r % 2 = 0 := by omega
        have c1 : RealCell graph (x.1, r) := ⟨⟨x1, x2, hr2, hr3⟩, x5, hr5⟩
        have c2 : RealCell graph (p.1, r) := ⟨⟨p1, p2, hr2, hr3⟩, p5, hr5⟩
        have s1 : S (x.1, r) := walk_row hcl hxS hx c1
          (fun z hz _ => hne _ _ (Or.inr (by omega)))
        have s2 : S (p.1, r) := walk_col (p := (x.1, r)) hcl s1 c1 c2
          (fun z _ _ => hne _ _ (Or.inr (by simp only; omega)))
        exact walk_row (p := (p.1, r)) hcl s2 c2 (y := p.2) hp
          (fun z hz hz2 => by
            simp only at hz
            have : z = p.2 := by omega
            rw [this]
            exact hps)
    · -- along the column of `x`, then along the row of `p`
      have s1 : S (p.1, x.2) := walk_col hcl hxS hx hcornerB
        (fun z hz _ => hne _ _ (by omega))
      exact walk_row (p := (p.1, x.2)) hcl s1 hcornerB (y := p.2) hp
        (fun z hz _ => hne _ _ (by simp only at hz ⊢; omega))
  · -- along the row of `x`, then along the column of `p`
    have s1 : S (x.1, p.2) := walk_row hcl hxS hx hcornerA
      (fun z hz _ => hne _ _ (by omega))
    exact walk_col (p := (x.1, p.2)) hcl s1 hcornerA (x := p.1) hp
      (fun z hz _ => hne _ _ (by simp only at hz ⊢; omega))

/-- When the traversal is back at the start, every other real cell is marked visited. -/
theorem back_at_start {graph : Graph} (h3r : 3 ≤ graph.rows) (h3c : 3 ≤ graph.cols)
    {start : Coord} {a : Cfg} (hI : Inv graph start a) (hst : a.stack = [start])
    {x : Coord} (hx : RealCell graph x) (hxs : x ≠ start)
    (hxv : x ∈ a.visited ∨ x ∈ a.stack) :
    getUnvisitedNeighbors graph start (start :: a.visited) = [] := by
  have hxv2 : x ∈ a.visited := by
    rcases hxv with h | h
    · exact h
    · rw [hst] at h
      exact absurd (List.mem_singleton.mp h) hxs
  have hcl : ClosedIn graph (fun q => q ≠ start) (fun q => q ∈ a.visited ∧ q ≠ start) := by
    intro p q hp hpr hpq hq
    refine ⟨hI.closed p hp.1 hpr ?_ q hpq, hq⟩
    rw [hst]
    simpa using hp.2
  have hsr : RealCell graph start := hI.stack_real start (by rw [hst]; simp)
  rw [List.eq_nil_iff_forall_not_mem]
  intro q hq
  rw [mem_getUnvisitedNeighbors] at hq
  have hqs : q ≠ start := nbr_ne hq.1
  have := closed_covers_avoiding h3r h3c hcl hx ⟨hxv2, hxs⟩ hxs (nbr_real hsr hq.1) hqs
  exact hq.2 (List.mem_cons_of_mem _ this.1)

theorem startInv_init {graph : Graph} {start : Coord} :
    StartInv graph start (initCfg start) :=
  Or.inl ⟨rfl, rfl⟩

theorem startInv_step {graph : Graph} (h3r : 3 ≤ graph.rows) (h3c : 3 ≤ graph.cols)
    {sh : Shuffle} (hsh : PermShuffle sh) {start : Coord} {a b : Cfg}
    (hI : Inv graph start a) (hM : StartInv graph start a) (h : Calls graph sh a b) :
    StartInv graph start b := by
  obtain ⟨c, rest, hs, hcase⟩ := calls_cases h
  have hc : RealCell graph c := hI.stack_real c (hs ▸ List.mem_cons_self _ _)
  rcases hM with ⟨hm0, hst⟩ | ⟨m, hm, hsm, x, hx, hxs, hxv⟩
  · -- the first call
    rw [hs] at hst
    obtain ⟨rfl, rfl⟩ := List.cons.inj hst
    rcases hcase with ⟨_, hne, _⟩ | ⟨n, _, hn, rfl⟩
    · exact absurd rfl hne
    · obtain ⟨hnbr, hnc, hnv, hns, _, hnr, hmv⟩ := forward_facts hsh hI hs hn
      have hmk := inBetween_grid hc hnbr
      right
      refine ⟨[getInBetweenNodes c n], by simp [hm0], ?_, n, hnr, hnc, Or.inr (by simp)⟩
      simp only [List.mem_singleton]
      intro h0
      exact real_not_inBetween hc (h0 ▸ hmk.2)
  · by_cases hrest : rest = []
    · -- back at the start: the call returns
      subst hrest
      have hcs : c = start := by
        have := hI.stack_last
        rw [hs] at this
        simpa using this
      subst hcs
      have hunv := back_at_start h3r h3c hI hs hx hxs hxv
      rcases hcase with ⟨_, hne, _⟩ | ⟨n, hne, _, _⟩
      · exact absurd rfl hne
      · exact absurd hunv hne
    · have hcs : c ≠ start := by
        have hl := hI.stack_last
        have hnd := hI.stack_nodup
        rw [hs] at hl hnd
        obtain ⟨r, rs, rfl⟩ := List.exists_cons_of_ne_nil hrest
        rw [List.getLast?_cons_cons] at hl
        intro h0
        exact (List.nodup_cons.mp hnd).1 (h0 ▸ List.mem_of_getLast?_eq_some hl)
      rcases hcase with ⟨_, _, rfl⟩ | ⟨n, _, hn, rfl⟩
      · right
        refine ⟨m ++ [c], by simp [hm], ?_, x, hx, hxs, ?_⟩
        · simp only [List.mem_append, List.mem_singleton, not_or]
          exact ⟨hsm, fun h0 => hcs h0.symm⟩
        · rcases hxv with h0 | h0
          · exact Or.inl (List.mem_cons_of_mem _ h0)
          · rw [hs] at h0
            rcases List.mem_cons.mp h0 with rfl | h0
            · exact Or.inl (List.mem_cons_self _ _)
            · exact Or.inr h0
      · obtain ⟨hnbr, hnc, hnv, hns, _, hnr, hmv⟩ := forward_facts hsh hI hs hn
        have hmk := inBetween_grid hc hnbr
        have hsr : RealCell graph start := by
          have := List.mem_of_getLast?_eq_some hI.stack_last
          exact hI.stack_real start this
        right
        refine ⟨m ++ [c] ++ [getInBetweenNodes c n], by simp [hm], ?_, x, hx, hxs, ?_⟩
        · simp only [List.mem_append, List.mem_singleton, not_or]
          refine ⟨⟨hsm, fun h0 => hcs h0.symm⟩, ?_⟩
          intro h0
          exact real_not_inBetween hsr (h0 ▸ hmk.2)
        · rcases hxv with h0 | h0
          · exact Or.inl (List.mem_cons_of_mem _ (List.mem_cons_of_mem _ h0))
          · rw [hs] at h0
            exact Or.inr (List.mem_cons_of_mem _ h0)

theorem startInv_reaches {graph : Graph} (h3r : 3 ≤ graph.rows) (h3c : 3 ≤ graph.cols)
    {sh : Shuffle} (hsh : PermShuffle sh) {start : Coord} (hs : RealCell graph start)
    {a : Cfg} (h : Reaches graph sh (initCfg start) a) : StartInv graph start a := by
  induction h with
  | refl => exact startInv_init
  | tail hr hstep ih =>
    exact startInv_step h3r h3c hsh (inv_reaches hsh (inv_init hs) hr) ih hstep

/-- What the trimming of `runMaze` leaves: the recorded list is the start, a middle part
without the start, and the start again (or the start alone). -/
theorem trim_facts {graph : Graph} {sh : Shuffle} {start : Coord} {last final : Cfg}
    (hI : Inv graph start last) (hM : StartInv graph start last)
    (hf : dfsStep graph sh last = Step.finish final) :
    (final.mazeList = [start] ∧ final.mazeList.tail.dropLast = []) ∨
    (final.mazeList = start :: (final.mazeList.tail.dropLast ++ [start]) ∧
      start ∉ final.mazeList.tail.dropLast) := by
  obtain ⟨hst, rfl, _, _⟩ := final_facts hI hf
  rcases hM with ⟨hm0, _⟩ | ⟨m, hm, hsm, _⟩
  · left
    simp [hm0]
  · right
    simp only [hm, List.cons_append, List.tail_cons, List.dropLast_concat]
    exact ⟨trivial, hsm⟩

/-- In a run that returns, the neighbors picked from some call on are, each once, the real
cells not reached before that call. -/
theorem chosen_spec {graph : Graph} {sh : Shuffle} (hsh : PermShuffle sh) {start : Coord} :
    ∀ (fuel : Nat) (a : Cfg), Inv graph start a →
      (∃ final, dfs graph sh fuel a = Outcome.returned final) →
      (chosenList graph sh fuel a).Nodup ∧
      ∀ p, p ∈ chosenList graph sh fuel a ↔
        (RealCell graph p ∧ p ∉ a.visited ∧ p ∉ a.stack) := by
  intro fuel
  induction fuel with
  | zero =>
    intro a _ h
    obtain ⟨final, h⟩ := h
    simp [dfs] at h
  | succ fuel ih =>
    intro a hI hret
    obtain ⟨final, hret⟩ := hret
    simp only [dfs] at hret
    simp only [chosenList]
    cases hstep : dfsStep graph sh a with
    | throws => rw [hstep] at hret; simp at hret
    | finish f =>
      obtain ⟨hst, rfl, hcov, _⟩ := final_facts hI hstep
      refine ⟨List.nodup_nil, ?_⟩
      intro p
      simp only [List.not_mem_nil, false_iff, not_and, not_not]
      intro hp hpv
      have := hcov p hp
      rw [hst]
      simp only [List.mem_cons] at this ⊢
      rcases this with h | h
      · exact Or.inl h
      · exact absurd h hpv
    | recurse b =>
      rw [hstep] at hret
      simp only at hret
      obtain ⟨hnd, hmem⟩ := ih b (inv_step hsh hI hstep) ⟨final, hret⟩
      obtain ⟨c, rest, hs, hcase⟩ := calls_cases hstep
      have hc : RealCell graph c := hI.stack_real c (hs ▸ List.mem_cons_self _ _)
      simp only
      rcases hcase with ⟨hunv, _, rfl⟩ | ⟨n, hne, hn, rfl⟩
      · have hcn : chosenNeighbor graph sh a = none := by
          unfold chosenNeighbor
          rw [hs]
          simp [hunv]
        rw [hcn]
        refine ⟨by simpa using hnd, ?_⟩
        intro p
        simp only [Option.toList, List.nil_append, hmem p, hs, List.mem_cons, not_or]
        tauto
      · obtain ⟨hnbr, hnc, hnv, hns, _, hnr, hmv⟩ := forward_facts hsh hI hs hn
        have hmk := inBetween_grid hc hnbr
        have hcn : chosenNeighbor graph sh a = some n := by
          unfold chosenNeighbor
          rw [hs]
          simp only [List.length_eq_zero, hne, if_false]
          exact hn
        rw [hcn]
        simp only [Option.toList, List.singleton_append]
        constructor
        · refine List.nodup_cons.mpr ⟨?_, hnd⟩
          rw [hmem n]
          simp
        · intro p
          rw [hs] at hns
          simp only [List.mem_cons, hmem p, hs, not_or] at hns ⊢
          constructor
          · rintro (rfl | ⟨hp, ⟨_, h2, h3⟩, _, h5, h6⟩)
            · exact ⟨hnr, hnv, hns.1, hns.2⟩
            · exact ⟨hp, h3, h5, h6⟩
          · rintro ⟨hp, h3, h5, h6⟩
            by_cases hpn : p = n
            · exact Or.inl hpn
            · refine Or.inr ⟨hp, ⟨?_, h5, h3⟩, hpn, h5, h6⟩
              intro hpm
              exact real_not_inBetween hp (hpm ▸ hmk.2)

/-- The in-between cells are recorded at most once. -/
theorem inBetween_count_reaches {graph : Graph} {sh : Shuffle} (hsh : PermShuffle sh)
    {start : Coord} (hs : RealCell graph start) {a : Cfg}
    (h : Reaches graph sh (initCfg start) a) :
    ∀ p, InBetween p → a.mazeList.count p ≤ 1 := by
  induction h with
  | refl => intro p _; simp [initCfg]
  | tail hr hstep ih =>
    rename_i x y
    have hI := inv_reaches hsh (inv_init hs) hr
    obtain ⟨c, rest, hst, hcase⟩ := calls_cases hstep
    have hc : RealCell graph c := hI.stack_real c (hst ▸ List.mem_cons_self _ _)
    intro p hp
    have hpc : c ≠ p := fun h0 => real_not_inBetween hc (h0 ▸ hp)
    rcases hcase with ⟨_, _, rfl⟩ | ⟨n, _, hn, rfl⟩
    · simp only [List.count_append, List.count_singleton, beq_iff_eq, hpc, if_false]
      exact ih p hp
    · obtain ⟨_, _, _, _, _, _, hmv⟩ := forward_facts hsh hI hst hn
      simp only [List.count_append, List.count_singleton, beq_iff_eq, hpc, if_false]
      by_cases hpm : getInBetweenNodes c n = p
      · subst hpm
        rw [hI.visited_iff] at hmv
        rw [List.count_eq_zero_of_not_mem hmv]
        simp
      · simp only [hpm, if_false]
        exact ih p hp

theorem count_eq_one_of_nodup {l : List Coord} (hnd : l.Nodup) {p : Coord} (h : p ∈ l) :
    l.count p = 1 := by
  induction l with
  | nil => exact absurd h (List.not_mem_nil _)
  | cons a t ih =>
    obtain ⟨hat, ht⟩ := List.nodup_cons.mp hnd
    rw [List.count_cons]
    by_cases hpa : a = p
    · subst hpa
      simp [List.count_eq_zero_of_not_mem hat]
    · rcases List.mem_cons.mp h with h0 | h0
      · exact absurd h0.symm hpa
      · simp [hpa, ih ht h0]

/-! ## The carved graph -/

theorem exists_last_edge {V : Type} {G : SimpleGraph V} {n : V} :
    ∀ {u : V} (p : G.Walk u n), u ≠ n → ∃ x, G.Adj x n ∧ s(x, n) ∈ p.edges := by
  intro u p
  induction p with
  | nil => intro h; exact absurd rfl h
  | cons h q ih =>
    rename_i a b c
    intro _
    by_cases hb : b = c
    · subst hb
      exact ⟨a, h, by simp⟩
    · obtain ⟨x, hx, hmem⟩ := ih hb
      exact ⟨x, hx, by simp [hmem]⟩

/-- A graph without cycles stays so when one edge to a vertex without edges is added. -/
theorem acyclic_add_leaf {V : Type} {G H : SimpleGraph V} (hG : G.IsAcyclic) {c n : V}
    (hle : ∀ u v, H.Adj u v → G.Adj u v ∨ (u = c ∧ v = n) ∨ (u = n ∧ v = c))
    (hiso : ∀ u, ¬ G.Adj n u) : H.IsAcyclic := by
  classical
  intro v w hw
  by_cases hn : n ∈ w.support
  · have hw2 := hw.rotate hn
    generalize w.rotate hn = w2 at hw2
    cases w2 with
    | nil => exact hw2.ne_nil rfl
    | cons h p =>
      rename_i u
      rw [SimpleGraph.Walk.cons_isCycle_iff] at hw2
      obtain ⟨_, hnot⟩ := hw2
      have hu : u = c := by
        rcases hle _ _ h with h1 | ⟨_, h2⟩ | ⟨_, h2⟩
        · exact absurd h1 (hiso u)
        · exact absurd h2.symm h.ne
        · exact h2
      subst hu
      obtain ⟨x, hx, hmem⟩ := exists_last_edge p h.ne.symm
      have hxc : x = u := by
        rcases hle _ _ hx with h1 | ⟨h2, _⟩ | ⟨_, h2⟩
        · exact absurd h1.symm (hiso x)
        · exact h2
        · exact absurd h2.symm h.ne.symm
      subst hxc
      rw [Sym2.eq_swap] at hmem
      exact hnot hmem
  · have hedges : ∀ e ∈ w.edges, e ∈ G.edgeSet := by
      intro e he
      induction e using Sym2.ind with
      | _ a b =>
        rw [SimpleGraph.mem_edgeSet]
        rcases hle _ _ (w.adj_of_mem_edges he) with h1 | ⟨_, h2⟩ | ⟨h2, _⟩
        · exact h1
        · exact absurd (h2 ▸ w.snd_mem_support_of_mem_edges he) hn
        · exact absurd (h2 ▸ w.fst_mem_support_of_mem_edges he) hn
    exact hG (w.transfer G hedges) (hw.transfer hedges)

theorem midpoint_facts {graph : Graph} {a b : Coord} (ha : RealCell graph a)
    (h : TwoApart a b) :
    InBetween (midpoint a b) ∧ Touches (midpoint a b) a ∧ Touches (midpoint a b) b := by
  obtain ⟨_, h5, h6⟩ := ha
  unfold TwoApart at h
  unfold InBetween Touches midpoint
  simp only
  refine ⟨?_, ?_, ?_⟩ <;> omega

theorem nbr_midpoint {graph : Graph} {c n : Coord} (h : Nbr graph c n) :
    TwoApart c n ∧ midpoint c n = getInBetweenNodes c n := by
  have hm := inBetween_of_nbr h
  constructor
  · unfold TwoApart
    omega
  · unfold midpoint
    apply Prod.ext <;> simp only <;> omega

theorem carved_adj {graph : Graph} {l : List Coord} {a b : RealVertex graph} :
    (carved graph l).Adj a b ↔ TwoApart a.1 b.1 ∧ midpoint a.1 b.1 ∈ l :=
  Iff.rfl

/-- The carved graph depends on the in-between cells of the list only. -/
theorem carved_congr {graph : Graph} {l l2 : List Coord}
    (h : ∀ m, InBetween m → (m ∈ l ↔ m ∈ l2)) : carved graph l = carved graph l2 := by
  ext a b
  rw [carved_adj, carved_adj]
  constructor
  · rintro ⟨h1, h2⟩
    exact ⟨h1, (h _ (midpoint_facts a.2 h1).1).mp h2⟩
  · rintro ⟨h1, h2⟩
    exact ⟨h1, (h _ (midpoint_facts a.2 h1).1).mpr h2⟩

theorem carved_mono {graph : Graph} {l l2 : List Coord} (h : ∀ m, m ∈ l → m ∈ l2) :
    carved graph l ≤ carved graph l2 := by
  intro a b hab
  rw [carved_adj] at hab ⊢
  exact ⟨hab.1, h _ hab.2⟩

/-- Along a run the carved graph has no cycle, and it joins the start to every real cell
that is visited or on the stack. -/
theorem tree_reaches {graph : Graph} {sh : Shuffle} (hsh : PermShuffle sh) {start : Coord}
    (hs : RealCell graph start) {a : Cfg} (h : Reaches graph sh (initCfg start) a) :
    (carved graph a.mazeList).IsAcyclic ∧
      ∀ v : RealVertex graph, (v.1 ∈ a.visited ∨ v.1 ∈ a.stack) →
        (carved graph a.mazeList).Reachable ⟨start, hs⟩ v := by
  induction h with
  | refl =>
    constructor
    · intro v w hw
      cases w with
      | nil => exact hw.ne_nil rfl
      | cons h _ => exact absurd h.2 (by simp [initCfg])
    · intro v hv
      have : v = ⟨start, hs⟩ := by
        apply Subtype.ext
        simpa [initCfg] using hv
      rw [this]
  | tail hr hstep ih =>
    rename_i a b
    have hI := inv_reaches hsh (inv_init hs) hr
    obtain ⟨hacyc, hreach⟩ := ih
    obtain ⟨c, rest, hst, hcase⟩ := calls_cases hstep
    have hc : RealCell graph c := hI.stack_real c (hst ▸ List.mem_cons_self _ _)
    rcases hcase with ⟨_, _, rfl⟩ | ⟨n, _, hn, rfl⟩
    · have e : carved graph (a.mazeList ++ [c]) = carved graph a.mazeList := by
        apply carved_congr
        intro m hm
        simp only [List.mem_append, List.mem_singleton]
        constructor
        · rintro (h0 | h0)
          · exact h0
          · exact absurd hm (h0 ▸ real_not_inBetween hc)
        · exact Or.inl
      simp only
      rw [e]
      refine ⟨hacyc, ?_⟩
      intro v hv
      apply hreach
      rw [hst]
      simp only [List.mem_cons] at hv ⊢
      tauto
    · obtain ⟨hnbr, hnc, hnv, hns, _, hnr, hmv⟩ := forward_facts hsh hI hst hn
      have hmk := inBetween_grid hc hnbr
      obtain ⟨hta, hmid⟩ := nbr_midpoint hnbr
      have hmono : carved graph a.mazeList ≤
          carved graph (a.mazeList ++ [c] ++ [getInBetweenNodes c n]) :=
        carved_mono (fun m hm => by simp [hm])
      simp only
      constructor
      · refine acyclic_add_leaf hacyc (c := ⟨c, hc⟩) (n := ⟨n, hnr⟩) ?_ ?_
        · intro u v huv
          obtain ⟨h1, h2⟩ := huv
          simp only [List.mem_append, List.mem_singleton] at h2
          obtain ⟨hib, htu, htv⟩ := midpoint_facts u.2 h1
          rcases h2 with (h2 | h2) | h2
          · exact Or.inl ⟨h1, h2⟩
          · exact absurd hib (h2 ▸ real_not_inBetween hc)
          · right
            rw [h2] at htu htv
            have hu := touches_inBetween hc hnbr htu u.2.2.1 u.2.2.2
            have hv := touches_inBetween hc hnbr htv v.2.2.1 v.2.2.2
            have huv : u.1 ≠ v.1 := by
              intro h0
              unfold TwoApart at h1
              rw [h0] at h1
              omega
            rcases hu with hu | hu <;> rcases hv with hv | hv
            · exact absurd (hu.trans hv.symm) huv
            · exact Or.inl ⟨Subtype.ext hu, Subtype.ext hv⟩
            · exact Or.inr ⟨Subtype.ext hu, Subtype.ext hv⟩
            · exact absurd (hu.trans hv.symm) huv
        · intro u hu
          obtain ⟨h1, h2⟩ := hu
          have ht := (midpoint_facts hnr h1).2.1
          rw [← hI.visited_iff] at h2
          rcases hI.flank _ h2 n ht hnr.2.1 hnr.2.2 with h0 | h0
          · exact hnv h0
          · exact hns h0
      · intro v hv
        by_cases hvn : v.1 = n
        · have h1 : (carved graph (a.mazeList ++ [c] ++ [getInBetweenNodes c n])).Reachable
              ⟨start, hs⟩ ⟨c, hc⟩ :=
            (hreach ⟨c, hc⟩ (Or.inr (by rw [hst]; simp))).mono hmono
          have h2 : (carved graph (a.mazeList ++ [c] ++ [getInBetweenNodes c n])).Adj
              ⟨c, hc⟩ v := by
            rw [carved_adj, hvn]
            exact ⟨hta, by simp [hmid]⟩
          exact h1.trans h2.reachable
        · refine (hreach v ?_).mono hmono
          rw [hst]
          simp only [List.mem_cons] at hv ⊢
          rcases hv with (h0 | h0 | h0) | (h0 | h0 | h0)
          · exact absurd hmk.2 (h0 ▸ real_not_inBetween v.2)
          · exact Or.inr (Or.inl h0)
          · exact Or.inl h0
          · exact absurd h0 hvn
          · exact Or.inr (Or.inl h0)
          · exact Or.inr (Or.inr h0)

/-- Along a run the in-between cells recorded are distinct, one for each real cell reached
after the start. -/
theorem inBetween_filter_reaches {graph : Graph} {sh : Shuffle} (hsh : PermShuffle sh)
    {start : Coord} (hs : RealCell graph start) {a : Cfg}
    (h : Reaches graph sh (initCfg start) a) :
    (a.mazeList.filter (fun p => decide (InBetween p))).Nodup ∧
      (a.mazeList.filter (fun p => decide (InBetween p))).length + 1 +
        (unvisitedReal graph a).card = numReal graph := by
  induction h with
  | refl =>
    have := measure_init hs
    unfold dfsMeasure at this
    simp only [initCfg, List.length_singleton] at this
    simp only [initCfg, List.filter_nil, List.nodup_nil, List.length_nil, true_and]
    omega
  | tail hr hstep ih =>
    rename_i a b
    have hI := inv_reaches hsh (inv_init hs) hr
    obtain ⟨hnd, hlen⟩ := ih
    have hprog := step_progress hsh hI hstep
    obtain ⟨c, rest, hst, hcase⟩ := calls_cases hstep
    have hc : RealCell graph c := hI.stack_real c (hst ▸ List.mem_cons_self _ _)
    have hcf : decide (InBetween c) = false := by simpa using real_not_inBetween hc
    rcases hcase with ⟨_, _, rfl⟩ | ⟨n, _, hn, rfl⟩
    · simp only [hst, List.length_cons] at hprog
      simp only [List.filter_append, List.filter_cons, hcf, List.filter_nil,
        List.append_nil, Bool.false_eq_true, if_false]
      exact ⟨hnd, by omega⟩
    · obtain ⟨hnbr, _, _, _, _, _, hmv⟩ := forward_facts hsh hI hst hn
      have hmk := inBetween_grid hc hnbr
      have hmt : decide (InBetween (getInBetweenNodes c n)) = true := by simpa using hmk.2
      simp only [hst, List.length_cons] at hprog
      simp only [List.filter_append, List.filter_cons, hcf, hmt, List.filter_nil,
        List.append_nil, Bool.false_eq_true, if_false, if_true, List.length_append,
        List.length_singleton]
      constructor
      · rw [List.nodup_append]
        refine ⟨hnd, List.nodup_singleton _, ?_⟩
        intro x hx hy
        rw [List.mem_singleton] at hy
        rw [hI.visited_iff] at hmv
        exact hmv (hy ▸ (List.mem_filter.mp hx).1)
      · omega

theorem unvisited_last_empty {graph : Graph} {sh : Shuffle} {start : Coord}
    {last final : Cfg} (hI : Inv graph start last)
    (hf : dfsStep graph sh last = Step.finish final) : unvisitedReal graph last = ∅ := by
  obtain ⟨hst, rfl, hcov, _⟩ := final_facts hI hf
  unfold unvisitedReal
  rw [Finset.filter_eq_empty_iff]
  intro p hp
  have := hcov p ((mem_realCells _ _).mp hp)
  simp only [List.mem_cons] at this
  rw [hst]
  simp only [List.mem_singleton]
  tauto

/-- The returned list and the list recorded before the last call hold the same in-between
cells. -/
theorem trimmed_inBetween {graph : Graph} {sh : Shuffle} {start : Coord}
    {last final : Cfg} (hI : Inv graph start last) (hM : StartInv graph start last)
    (hf : dfsStep graph sh last = Step.finish final) :
    final.mazeList.tail.dropLast.filter (fun p => decide (InBetween p)) =
      last.mazeList.filter (fun p => decide (InBetween p)) := by
  have hsr : RealCell graph start := by
    have := List.mem_of_getLast?_eq_some hI.stack_last
    exact hI.stack_real start this
  have hsf : decide (InBetween start) = false := by simpa using real_not_inBetween hsr
  have htrim := trim_facts hI hM hf
  obtain ⟨_, hfin, _, _⟩ := final_facts hI hf
  have hml : final.mazeList = last.mazeList ++ [start] := by rw [hfin]
  rcases htrim with ⟨h1, h2⟩ | ⟨h1, _⟩
  · have : last.mazeList = [] :=
      @List.append_cancel_right _ last.mazeList [start] [] (hml.symm.trans h1)
    rw [h2, this]
  · have : last.mazeList = start :: final.mazeList.tail.dropLast :=
      @List.append_cancel_right _ last.mazeList [start]
        (start :: final.mazeList.tail.dropLast) (hml.symm.trans h1)
    rw [this, List.filter_cons, hsf]
    simp

theorem twoApart_symm {p q : Coord} (h : TwoApart p q) : TwoApart q p := by
  unfold TwoApart at h ⊢
  omega

theorem midpoint_comm (p q : Coord) : midpoint p q = midpoint q p := by
  unfold midpoint
  rw [add_comm p.1, add_comm p.2]

/-- Along a run every two consecutive cells of the stack are 2 apart on one axis and their
midpoint is marked visited. -/
theorem chain_reaches {graph : Graph} {sh : Shuffle} (hsh : PermShuffle sh) {start : Coord}
    (hs : RealCell graph start) {a : Cfg} (h : Reaches graph sh (initCfg start) a) :
    List.Chain' (fun p q => TwoApart p q ∧ midpoint p q ∈ a.visited) a.stack := by
  induction h with
  | refl => simp [initCfg]
  | tail hr hstep ih =>
    rename_i a b
    have hI := inv_reaches hsh (inv_init hs) hr
    obtain ⟨c, rest, hst, hcase⟩ := calls_cases hstep
    rw [hst] at ih
    rcases hcase with ⟨_, _, rfl⟩ | ⟨n, _, hn, rfl⟩
    · exact (List.Chain'.tail ih).imp
        (fun p q hpq => ⟨hpq.1, List.mem_cons_of_mem _ hpq.2⟩)
    · obtain ⟨hnbr, _, _, _, _, _, _⟩ := forward_facts hsh hI hst hn
      obtain ⟨hta, hmid⟩ := nbr_midpoint hnbr
      refine List.chain'_cons.mpr ⟨⟨twoApart_symm hta, ?_⟩, ?_⟩
      · rw [midpoint_comm, hmid]
        exact List.mem_cons_self _ _
      · exact ih.imp (fun p q hpq =>
          ⟨hpq.1, List.mem_cons_of_mem _ (List.mem_cons_of_mem _ hpq.2)⟩)

theorem numReal_ge_four {graph : Graph} (hg : ValidGrid graph) : 4 ≤ numReal graph := by
  obtain ⟨_, _, h3, h4⟩ := hg
  unfold numReal
  have a : 2 ≤ (graph.rows + 1) / 2 := by omega
  have b : 2 ≤ (graph.cols + 1) / 2 := by omega
  calc 4 = 2 * 2 := rfl
    _ ≤ _ := Nat.mul_le_mul a b

theorem perm_short_eq {sh : Shuffle} (hsh : PermShuffle sh) (k : Nat) (l : List Coord)
    (h : l.length ≤ 1) : sh k l = l := by
  match l, h with
  | [], _ => exact List.perm_nil.mp (hsh k [])
  | [x], _ => exact List.perm_singleton.mp (hsh k [x])

/-- A call that leaves no choice does the same under every permuting shuffle. -/
theorem dfsStep_eq_of_short {graph : Graph} {sh : Shuffle} (hsh : PermShuffle sh)
    {cfg : Cfg} (h : shortStep graph cfg = true) :
    dfsStep graph sh cfg = dfsStep graph idShuffle cfg := by
  unfold shortStep at h
  unfold dfsStep
  split
  · rfl
  · rename_i c rest hst
    rw [hst] at h
    simp only [decide_eq_true_eq] at h
    simp only [perm_short_eq hsh _ _ h, idShuffle]

theorem dfs_eq_of_single {graph : Graph} {sh : Shuffle} (hsh : PermShuffle sh) :
    ∀ (fuel : Nat) (cfg : Cfg), singleRun graph fuel cfg = true →
      dfs graph sh fuel cfg = dfs graph idShuffle fuel cfg := by
  intro fuel
  induction fuel with
  | zero => intro cfg _; rfl
  | succ fuel ih =>
    intro cfg h
    simp only [singleRun, Bool.and_eq_true] at h
    obtain ⟨h1, h2⟩ := h
    simp only [dfs, dfsStep_eq_of_short hsh h1]
    cases hstep : dfsStep graph idShuffle cfg with
    | recurse next =>
      rw [hstep] at h2
      exact ih next h2
    | finish f => rfl
    | throws => rfl

/-- On the 3x3 grid with start (0,0) the first call picks (0,2) or (2,0), and no later
call leaves a choice. -/
theorem maze3_run (sh : Shuffle) (hsh : PermShuffle sh) :
    runMaze maze3 sh 7 = Outcome.returned maze3List ∨
      runMaze maze3 sh 7 = Outcome.returned maze3ListAlt := by
  have hI0 : Inv maze3.graph maze3.start (initCfg maze3.start) :=
    inv_init (by decide)
  cases hstep : dfsStep maze3.graph sh (initCfg maze3.start) with
  | throws => exact absurd hstep (step_not_throws hsh hI0)
  | finish f =>
    obtain ⟨c, hst, hunv, _⟩ := finish_cases hstep
    have hc : c = (0, 0) := by
      have : [((0, 0) : Coord)] = [c] := hst
      exact (List.cons.inj this).1.symm
    subst hc
    exact absurd hunv (by decide)
  | recurse b =>
    obtain ⟨c, rest, hst, hcase⟩ := calls_cases hstep
    have hc : c = (0, 0) ∧ rest = [] := by
      have : [((0, 0) : Coord)] = c :: rest := hst
      exact ⟨(List.cons.inj this).1.symm, (List.cons.inj this).2.symm⟩
    obtain ⟨rfl, rfl⟩ := hc
    rcases hcase with ⟨_, hne, _⟩ | ⟨n, _, hn, hb⟩
    · exact absurd rfl hne
    · have hmem := getLast?_mem_of_perm hsh _ _ _ hn
      have hn2 : n = (0, 2) ∨ n = (2, 0) := by
        have : getUnvisitedNeighbors maze3.graph (0, 0)
            ((0, 0) :: (initCfg maze3.start).visited) = [(0, 2), (2, 0)] := by decide
        rw [this] at hmem
        simpa using hmem
      have hrun : runMaze maze3 sh 7 =
          (match dfs maze3.graph sh 6 b with
            | Outcome.returned final => Outcome.returned final.mazeList.tail.dropLast
            | Outcome.threw => Outcome.threw
            | Outcome.pending => Outcome.pending) := by
        unfold runMaze
        simp only [dfs]
        have : dfsStep maze3.graph sh
            (initCfg (maze3.startNode.row, maze3.startNode.column)) = Step.recurse b := hstep
        rw [this]
      rcases hn2 with rfl | rfl
      · right
        rw [hrun, hb, dfs_eq_of_single hsh 6 _ (by decide)]
        decide
      · left
        rw [hrun, hb, dfs_eq_of_single hsh 6 _ (by decide)]
        decide

/-! ## Runs from any start -/

theorem stackInv_init {P Q : Coord → Prop} {start : Coord} (hs : P start) :
    StackInv P Q (initCfg start) where
  stack_ne := by simp [initCfg]
  stack_P := by simp [initCfg, hs]
  below := by simp [initCfg]
  recorded_Q := by simp [initCfg]

/-- A property of the cells of the stack that the candidates inherit, and a property of
the recorded cells that follows for the cell popped and the in-between node, are kept by
every call. -/
theorem stackInv_step {graph : Graph} {sh : Shuffle} (hsh : PermShuffle sh)
    {P Q : Coord → Prop} (hP : ∀ c n, P c → Nbr graph c n → P n) (hPQ : ∀ c, P c → Q c)
    (hQ : ∀ c n, P c → Nbr graph c n → Q (getInBetweenNodes c n)) {a b : Cfg}
    (hI : StackInv P Q a) (h : Calls graph sh a b) : StackInv P Q b := by
  obtain ⟨c, rest, hs, hcase⟩ := calls_cases h
  have hc : P c := hI.stack_P c (hs ▸ List.mem_cons_self _ _)
  have hrest : ∀ p ∈ rest, p ∈ a.visited := fun p hp => hI.below p (by rw [hs]; exact hp)
  rcases hcase with ⟨_, hne, rfl⟩ | ⟨n, _, hn, rfl⟩
  · refine ⟨hne, ?_, ?_, ?_⟩
    · exact fun p hp => hI.stack_P p (by rw [hs]; exact List.mem_cons_of_mem _ hp)
    · exact fun p hp => List.mem_cons_of_mem _ (hrest p (List.mem_of_mem_tail hp))
    · intro p hp
      rcases List.mem_append.mp hp with h0 | h0
      · exact hI.recorded_Q p h0
      · rw [List.mem_singleton.mp h0]
        exact hPQ c hc
  · have hnbr := ((mem_getUnvisitedNeighbors _ _ _ _).mp
      (getLast?_mem_of_perm hsh _ _ _ hn)).1
    refine ⟨by simp, ?_, ?_, ?_⟩
    · intro p hp
      rcases List.mem_cons.mp hp with rfl | hp
      · exact hP c _ hc hnbr
      · exact hI.stack_P p (by rw [hs]; exact hp)
    · intro p hp
      simp only [List.tail_cons] at hp
      rcases List.mem_cons.mp hp with rfl | hp
      · exact List.mem_cons_of_mem _ (List.mem_cons_self _ _)
      · exact List.mem_cons_of_mem _ (List.mem_cons_of_mem _ (hrest p hp))
    · intro p hp
      rcases List.mem_append.mp hp with h0 | h0
      · rcases List.mem_append.mp h0 with h1 | h1
        · exact hI.recorded_Q p h1
        · rw [List.mem_singleton.mp h1]
          exact hPQ c hc
      · rw [List.mem_singleton.mp h0]
        exact hQ c n hc hnbr

theorem stackInv_reaches {graph : Graph} {sh : Shuffle} (hsh : PermShuffle sh)
    {P Q : Coord → Prop} (hP : ∀ c n, P c → Nbr graph c n → P n) (hPQ : ∀ c, P c → Q c)
    (hQ : ∀ c n, P c → Nbr graph c n → Q (getInBetweenNodes c n)) {a b : Cfg}
    (hI : StackInv P Q a) (h : Reaches graph sh a b) : StackInv P Q b := by
  induction h with
  | refl => exact hI
  | tail _ hstep ih => exact stackInv_step hsh hP hPQ hQ ih hstep

/-- The list recorded when the last call returns. -/
theorem stackInv_final {graph : Graph} {sh : Shuffle} {P Q : Coord → Prop}
    (hPQ : ∀ c, P c → Q c) {last final : Cfg} (hI : StackInv P Q last)
    (hf : dfsStep graph sh last = Step.finish final) : ∀ p ∈ final.mazeList, Q p := by
  obtain ⟨c, hs, _, rfl⟩ := finish_cases hf
  intro p hp
  rcases List.mem_append.mp hp with h0 | h0
  · exact hI.recorded_Q p h0
  · rw [List.mem_singleton.mp h0]
    exact hPQ c (hI.stack_P c (by rw [hs]; simp))

theorem mem_boxCells (graph : Graph) (start p : Coord) :
    p ∈ boxCells graph start ↔ InBox graph start p := by
  unfold boxCells InBox
  simp only [Finset.mem_product, Finset.mem_Icc]
  tauto

theorem start_inBox (graph : Graph) (start : Coord) : InBox graph start start := by
  unfold InBox
  omega

theorem nbr_inBox {graph : Graph} {start c n : Coord} (hc : InBox graph start c)
    (h : Nbr graph c n) : InBox graph start n := by
  unfold InBox at hc ⊢
  rcases h with ⟨rfl, h⟩ | ⟨rfl, h⟩ | ⟨rfl, h⟩ | ⟨rfl, h⟩ <;> simp only <;> omega

theorem box_measure_decreases {graph : Graph} {sh : Shuffle} (hsh : PermShuffle sh)
    {start : Coord} {Q : Coord → Prop} {a b : Cfg}
    (hI : StackInv (InBox graph start) Q a) (h : Calls graph sh a b) :
    boxMeasure graph start b < boxMeasure graph start a := by
  obtain ⟨c, rest, hs, hcase⟩ := calls_cases h
  have hc := hI.stack_P c (hs ▸ List.mem_cons_self _ _)
  unfold boxMeasure
  rcases hcase with ⟨_, _, rfl⟩ | ⟨n, _, hn, rfl⟩
  · have heq : unvisitedBox graph start ⟨rest, c :: a.visited, a.mazeList ++ [c],
        a.shuffles⟩ = unvisitedBox graph start a := by
      unfold unvisitedBox
      apply Finset.filter_congr
      intro p _
      simp only [hs, List.mem_cons, not_or]
      tauto
    rw [heq, hs]
    simp only [List.length_cons]
    omega
  · have hmem := (mem_getUnvisitedNeighbors _ _ _ _).mp (getLast?_mem_of_perm hsh _ _ _ hn)
    obtain ⟨hnbr, hnv⟩ := hmem
    simp only [List.mem_cons, not_or] at hnv
    have hns : n ∉ a.stack := by
      rw [hs]
      simp only [List.mem_cons, not_or]
      exact ⟨hnv.1, fun h0 => hnv.2 (hI.below n (by rw [hs]; exact h0))⟩
    have hnmem : n ∈ unvisitedBox graph start a := by
      unfold unvisitedBox
      rw [Finset.mem_filter, mem_boxCells]
      exact ⟨nbr_inBox hc hnbr, hnv.2, hns⟩
    have hsub : unvisitedBox graph start ⟨n :: c :: rest,
        getInBetweenNodes c n :: c :: a.visited,
        a.mazeList ++ [c] ++ [getInBetweenNodes c n], a.shuffles + 1⟩ ⊆
        (unvisitedBox graph start a).erase n := by
      intro p hp
      unfold unvisitedBox at hp ⊢
      simp only [Finset.mem_filter, Finset.mem_erase, hs, List.mem_cons, not_or] at hp ⊢
      exact ⟨hp.2.2.1, hp.1, hp.2.1.2.2, hp.2.2.2.1, hp.2.2.2.2⟩
    have hle := Finset.card_le_card hsub
    rw [Finset.card_erase_of_mem hnmem] at hle
    have hpos := Finset.card_pos.mpr ⟨n, hnmem⟩
    rw [hs]
    simp only [List.length_cons]
    omega

theorem step_not_throws_of_ne {graph : Graph} {sh : Shuffle} (hsh : PermShuffle sh)
    {a : Cfg} (hne : a.stack ≠ []) : dfsStep graph sh a ≠ Step.throws := by
  obtain ⟨c, rest, hs⟩ := List.exists_cons_of_ne_nil hne
  unfold dfsStep
  rw [hs]
  simp only [List.length_eq_zero]
  split_ifs with h1 h2
  · simp
  · simp
  · obtain ⟨n, hn⟩ := getLast?_isSome_of_perm hsh a.shuffles _ h1
    rw [hn]
    simp

/-- From any start, with more calls allowed than the measure, `dfs` returns. -/
theorem dfs_returns_box {graph : Graph} {sh : Shuffle} (hsh : PermShuffle sh)
    {start : Coord} :
    ∀ (fuel : Nat) (a : Cfg), StackInv (InBox graph start) (fun _ => True) a →
      boxMeasure graph start a ≤ fuel →
      ∃ last final, Reaches graph sh a last ∧ dfsStep graph sh last = Step.finish final ∧
        dfs graph sh fuel a = Outcome.returned final := by
  intro fuel
  induction fuel with
  | zero =>
    intro a hI hm
    have := List.length_pos.mpr hI.stack_ne
    unfold boxMeasure at hm
    omega
  | succ fuel ih =>
    intro a hI hm
    cases hstep : dfsStep graph sh a with
    | recurse b =>
      have hlt := box_measure_decreases hsh hI hstep
      have hIb := stackInv_step hsh (fun c n hc h => nbr_inBox hc h) (fun _ _ => trivial)
        (fun _ _ _ _ => trivial) hI hstep
      obtain ⟨last, final, hr, hf, hd⟩ := ih b hIb (by omega)
      refine ⟨last, final, Relation.ReflTransGen.head hstep hr, hf, ?_⟩
      simp only [dfs, hstep, hd]
    | finish final =>
      exact ⟨a, final, Relation.ReflTransGen.refl, hstep, by simp only [dfs, hstep]⟩
    | throws => exact absurd hstep (step_not_throws_of_ne hsh hI.stack_ne)

theorem box_measure_init (graph : Graph) (start : Coord) :
    boxMeasure graph start (initCfg start) + 1 = 2 * (boxCells graph start).card := by
  have hmem : start ∈ boxCells graph start := (mem_boxCells _ _ _).mpr (start_inBox _ _)
  have heq : unvisitedBox graph start (initCfg start) = (boxCells graph start).erase start := by
    ext p
    unfold unvisitedBox initCfg
    simp only [Finset.mem_filter, Finset.mem_erase, List.not_mem_nil, not_false_eq_true,
      List.mem_singleton, true_and]
    tauto
  have hpos := Finset.card_pos.mpr ⟨start, hmem⟩
  unfold boxMeasure
  rw [heq, Finset.card_erase_of_mem hmem]
  simp only [initCfg, List.length_singleton]
  omega

/-- The shape of every run of `runMaze` under a permuting shuffle, whatever the grid and
the start: a chain of calls to a last call that returns, reached whenever twice the number
of cells of the box, less one, calls are allowed. -/
theorem run_shape_box (self : Maze) {sh : Shuffle} (hsh : PermShuffle sh) :
    ∃ last final, Reaches self.graph sh (initCfg self.start) last ∧
      dfsStep self.graph sh last = Step.finish final ∧
      (∀ fuel, 2 * (boxCells self.graph self.start).card ≤ fuel + 1 →
        dfs self.graph sh fuel (initCfg self.start) = Outcome.returned final ∧
        recorded self sh fuel = Outcome.returned final.mazeList ∧
        runMaze self sh fuel = Outcome.returned final.mazeList.tail.dropLast) := by
  have hm := box_measure_init self.graph self.start
  obtain ⟨last, final, hr, hf, hd⟩ :=
    dfs_returns_box hsh (boxMeasure self.graph self.start (initCfg self.start))
      (initCfg self.start) (stackInv_init (start_inBox _ _)) le_rfl
  refine ⟨last, final, hr, hf, ?_⟩
  intro fuel hfuel
  obtain ⟨more, rfl⟩ := Nat.exists_eq_add_of_le
    (show boxMeasure self.graph self.start (initCfg self.start) ≤ fuel by omega)
  have hdfs := dfs_fuel_mono _ _ more hd
  refine ⟨hdfs, ?_, ?_⟩
  · unfold recorded
    have : dfs self.graph sh
        (boxMeasure self.graph self.start (initCfg self.start) + more)
        (initCfg (self.startNode.row, self.startNode.column)) = Outcome.returned final := hdfs
    rw [this]
  · unfold runMaze
    have : dfs self.graph sh
        (boxMeasure self.graph self.start (initCfg self.start) + more)
        (initCfg (self.startNode.row, self.startNode.column)) = Outcome.returned final := hdfs
    simp only [this]

theorem card_boxCells_of_inGrid {graph : Graph} {start : Coord} (hs : InGrid graph start) :
    (boxCells graph start).card = graph.rows * graph.cols := by
  obtain ⟨h1, h2, h3, h4⟩ := hs
  unfold boxCells
  rw [Finset.card_product, Int.card_Icc, Int.card_Icc]
  have e1 : (max start.1 ((graph.rows : Int) - 1) + 1 - min start.1 0).toNat = graph.rows := by
    omega
  have e2 : (max start.2 ((graph.cols : Int) - 1) + 1 - min start.2 0).toNat = graph.cols := by
    omega
  rw [e1, e2]

theorem inBox_iff_inGrid {graph : Graph} {start : Coord} (hs : InGrid graph start)
    (p : Coord) : InBox graph start p ↔ InGrid graph p := by
  obtain ⟨h1, h2, h3, h4⟩ := hs
  unfold InBox InGrid
  omega

theorem nbr_inGrid {graph : Graph} {c n : Coord} (hc : InGrid graph c)
    (h : Nbr graph c n) : InGrid graph n := by
  unfold InGrid at hc ⊢
  rcases h with ⟨rfl, h⟩ | ⟨rfl, h⟩ | ⟨rfl, h⟩ | ⟨rfl, h⟩ <;> simp only <;> omega

theorem inBetween_inGrid {graph : Graph} {c n : Coord} (hc : InGrid graph c)
    (h : Nbr graph c n) : InGrid graph (getInBetweenNodes c n) := by
  have hn := nbr_inGrid hc h
  have hm := inBetween_of_nbr h
  unfold InGrid at hc hn ⊢
  omega

theorem parity_kinds {p : Coord} (h : EvenCell p ∨ InBetween p) : ¬ OddCell p := by
  unfold EvenCell InBetween at h
  unfold OddCell
  omega

/-! ## The claims -/

/-- C1. Termination: on a grid with odd rows and cols at least 3, from a start with even
row and column inside the grid, with a shuffle that returns a permutation at every call,
`runMaze` returns a list as soon as `2 * V - 1` calls of `dfs` are allowed, and along the
chain of calls the measure "twice the number of real cells not reached yet plus the stack
length" decreases at every call. -/
theorem runMaze_terminates (self : Maze) (sh : Shuffle) (_hg : ValidGrid self.graph)
    (hs : ValidStart self) (hsh : PermShuffle sh) :
    (∃ l, ∀ fuel, 2 * numReal self.graph ≤ fuel + 1 →
      runMaze self sh fuel = Outcome.returned l) ∧
    (∀ a b, Reaches self.graph sh (initCfg self.start) a → Calls self.graph sh a b →
      dfsMeasure self.graph b < dfsMeasure self.graph a) := by
  obtain ⟨last, final, _, _, _, hrun, _⟩ := run_shape hsh hs
  refine ⟨⟨_, hrun⟩, ?_⟩
  intro a b ha hab
  exact measure_decreases hsh (inv_reaches hsh (inv_init hs) ha) hab

/-- C1 on the 3x3 grid with the shuffle that changes nothing. -/
theorem runMaze_terminates_witness :
    ValidGrid maze3.graph ∧ ValidStart maze3 ∧ PermShuffle idShuffle ∧
    ((∃ l, ∀ fuel, 2 * numReal maze3.graph ≤ fuel + 1 →
      runMaze maze3 idShuffle fuel = Outcome.returned l) ∧
    (∀ a b, Reaches maze3.graph idShuffle (initCfg maze3.start) a →
      Calls maze3.graph idShuffle a b →
      dfsMeasure maze3.graph b < dfsMeasure maze3.graph a)) :=
  ⟨by decide, by decide, permShuffle_id,
    runMaze_terminates maze3 idShuffle (by decide) (by decide) permShuffle_id⟩

/-- C2. Perfectness: on a valid grid, from a valid start, with a permuting shuffle, the
graph on the `V` real cells that joins two real cells exactly 2 apart on one axis iff
their midpoint occurs in the list returned by `runMaze` is a tree (connected and without
cycle), and the returned list holds exactly `V - 1` distinct in-between coordinates. -/
theorem runMaze_perfect (self : Maze) (sh : Shuffle) (hg : ValidGrid self.graph)
    (hs : ValidStart self) (hsh : PermShuffle sh) :
    ∃ l, (∀ fuel, 2 * numReal self.graph ≤ fuel + 1 →
        runMaze self sh fuel = Outcome.returned l) ∧
      (carved self.graph l).IsTree ∧
      (l.filter (fun p => decide (InBetween p))).toFinset.card + 1 = numReal self.graph := by
  obtain ⟨last, final, hr, hI, hf, hrun, _⟩ := run_shape hsh hs
  have hM := startInv_reaches hg.2.2.1 hg.2.2.2 hsh hs hr
  obtain ⟨hst, hfin, hcov, _⟩ := final_facts hI hf
  obtain ⟨hacyc, hreach⟩ := tree_reaches hsh hs hr
  obtain ⟨hnd, hlen⟩ := inBetween_filter_reaches hsh hs hr
  have hfilter := trimmed_inBetween hI hM hf
  have hgraph : carved self.graph final.mazeList.tail.dropLast =
      carved self.graph last.mazeList := by
    apply carved_congr
    intro m hm
    have hmt : decide (InBetween m) = true := by simpa using hm
    constructor
    · intro h0
      have : m ∈ final.mazeList.tail.dropLast.filter (fun p => decide (InBetween p)) :=
        List.mem_filter.mpr ⟨h0, hmt⟩
      rw [hfilter] at this
      exact (List.mem_filter.mp this).1
    · intro h0
      have : m ∈ last.mazeList.filter (fun p => decide (InBetween p)) :=
        List.mem_filter.mpr ⟨h0, hmt⟩
      rw [← hfilter] at this
      exact (List.mem_filter.mp this).1
  have hall : ∀ v : RealVertex self.graph,
      (carved self.graph last.mazeList).Reachable ⟨self.start, hs⟩ v := by
    intro v
    apply hreach
    have := hcov v.1 v.2
    rw [hfin] at this
    rw [hst]
    simp only [List.mem_cons, List.mem_singleton] at this ⊢
    tauto
  refine ⟨_, hrun, ?_, ?_⟩
  · rw [hgraph]
    refine ⟨?_, hacyc⟩
    haveI : Nonempty (RealVertex self.graph) := ⟨⟨self.start, hs⟩⟩
    exact ⟨fun u v => (hall u).symm.trans (hall v)⟩
  · rw [hfilter, List.toFinset_card_of_nodup hnd]
    rw [unvisited_last_empty hI hf] at hlen
    simpa using hlen

/-- C2 on the 5x5 grid with the shuffle that reverses. -/
theorem runMaze_perfect_witness :
    ValidGrid maze5.graph ∧ ValidStart maze5 ∧ PermShuffle revShuffle ∧
    ∃ l, (∀ fuel, 2 * numReal maze5.graph ≤ fuel + 1 →
        runMaze maze5 revShuffle fuel = Outcome.returned l) ∧
      (carved maze5.graph l).IsTree ∧
      (l.filter (fun p => decide (InBetween p))).toFinset.card + 1 = numReal maze5.graph :=
  ⟨by decide, by decide, permShuffle_rev,
    runMaze_perfect maze5 revShuffle (by decide) (by decide) permShuffle_rev⟩

/-- C3. Exclusion of start: on a valid grid, from a valid start, with a permuting
shuffle, the list returned by `runMaze` does not contain the start coordinate. -/
theorem runMaze_excludes_start (self : Maze) (sh : Shuffle) (hg : ValidGrid self.graph)
    (hs : ValidStart self) (hsh : PermShuffle sh) :
    ∃ l, (∀ fuel, 2 * numReal self.graph ≤ fuel + 1 →
        runMaze self sh fuel = Outcome.returned l) ∧
      self.start ∉ l := by
  obtain ⟨last, final, hr, hI, hf, hrun, _⟩ := run_shape hsh hs
  have hM := startInv_reaches hg.2.2.1 hg.2.2.2 hsh hs hr
  refine ⟨_, hrun, ?_⟩
  rcases trim_facts hI hM hf with ⟨_, h⟩ | ⟨_, h⟩
  · rw [h]
    exact List.not_mem_nil _
  · exact h

/-- C3 on the 5x5 grid with the shuffle that reverses. -/
theorem runMaze_excludes_start_witness :
    ValidGrid maze5.graph ∧ ValidStart maze5 ∧ PermShuffle revShuffle ∧
    ∃ l, (∀ fuel, 2 * numReal maze5.graph ≤ fuel + 1 →
        runMaze maze5 revShuffle fuel = Outcome.returned l) ∧
      maze5.start ∉ l :=
  ⟨by decide, by decide, permShuffle_rev,
    runMaze_excludes_start maze5 revShuffle (by decide) (by decide) permShuffle_rev⟩

/-- C4, at the failing input: on the 3x3 grid with start (0,0) and end (2,2) and the
shuffle that changes nothing, `runMaze` returns a list that contains the end coordinate
(2,2), twice. -/
theorem runMaze_maze3_contains_end :
    runMaze maze3 idShuffle 7 = Outcome.returned maze3List ∧
      maze3.finishCell ∈ maze3List ∧ maze3List.count maze3.finishCell = 2 := by
  decide

/-- C5, counterexample: on the 3x3 grid with the shuffle that changes nothing the
coordinate (2,0) is recorded twice by `dfs` and occurs twice in the list that `runMaze`
returns. -/
theorem runMaze_maze3_duplicate :
    ValidGrid maze3.graph ∧ ValidStart maze3 ∧ PermShuffle idShuffle ∧
      recorded maze3 idShuffle 7 = Outcome.returned ((0, 0) :: (maze3List ++ [(0, 0)])) ∧
      runMaze maze3 idShuffle 7 = Outcome.returned maze3List ∧
      ((0, 0) :: (maze3List ++ [(0, 0)])).count (2, 0) = 2 ∧
      maze3List.count (2, 0) = 2 :=
  ⟨by decide, by decide, permShuffle_id, by decide, by decide, by decide, by decide⟩

/-- C5, amended. On a valid grid, from a valid start, with a permuting shuffle, every
in-between coordinate appears at most once in the list recorded by `dfs` and at most once
in the list returned by `runMaze`. -/
theorem inBetween_at_most_once (self : Maze) (sh : Shuffle) (_hg : ValidGrid self.graph)
    (hs : ValidStart self) (hsh : PermShuffle sh) :
    ∃ rec l, (∀ fuel, 2 * numReal self.graph ≤ fuel + 1 →
        recorded self sh fuel = Outcome.returned rec ∧
        runMaze self sh fuel = Outcome.returned l) ∧
      ∀ p, InBetween p → rec.count p ≤ 1 ∧ l.count p ≤ 1 := by
  obtain ⟨last, final, hr, hI, hf, hrun, hrec, _⟩ := run_shape hsh hs
  refine ⟨_, _, fun fuel hfuel => ⟨hrec fuel hfuel, hrun fuel hfuel⟩, ?_⟩
  intro p hp
  have hcount : final.mazeList.count p ≤ 1 := by
    obtain ⟨_, rfl, _, _⟩ := final_facts hI hf
    have h1 := inBetween_count_reaches hsh hs hr p hp
    have hsr : RealCell self.graph self.start := hs
    have hne : self.start ≠ p := fun h0 => real_not_inBetween hsr (h0 ▸ hp)
    simp only [List.count_append, List.count_singleton, beq_iff_eq, hne, if_false]
    exact h1
  refine ⟨hcount, le_trans (List.Sublist.count_le ?_ p) hcount⟩
  exact (List.dropLast_sublist _).trans (List.tail_sublist _)

/-- C5, amended, on the 3x3 grid with the shuffle that changes nothing. -/
theorem inBetween_at_most_once_witness :
    ValidGrid maze3.graph ∧ ValidStart maze3 ∧ PermShuffle idShuffle ∧
    ∃ rec l, (∀ fuel, 2 * numReal maze3.graph ≤ fuel + 1 →
        recorded maze3 idShuffle fuel = Outcome.returned rec ∧
        runMaze maze3 idShuffle fuel = Outcome.returned l) ∧
      ∀ p, InBetween p → rec.count p ≤ 1 ∧ l.count p ≤ 1 :=
  ⟨by decide, by decide, permShuffle_id,
    inBetween_at_most_once maze3 idShuffle (by decide) (by decide) permShuffle_id⟩

/-- C6, counterexample: on the 3x3 grid with start (0,0) and the shuffle that changes
nothing, the returned list holds (2,0), which has column 0 and row `rows - 1`. -/
theorem runMaze_maze3_on_ring :
    ValidGrid maze3.graph ∧ ValidStart maze3 ∧ PermShuffle idShuffle ∧
      runMaze maze3 idShuffle 7 = Outcome.returned maze3List ∧
      (2, 0) ∈ maze3List ∧ ((2, 0) : Coord).2 = 0 ∧
      ((2, 0) : Coord).1 = (maze3.graph.rows : Int) - 1 :=
  ⟨by decide, by decide, permShuffle_id, by decide, by decide, by decide, by decide⟩

/-- C6, amended. On a valid grid, from a valid start, with a permuting shuffle, every
coordinate in the list returned by `runMaze` lies inside the grid, `0 ≤ row ≤ rows - 1`
and `0 ≤ column ≤ cols - 1`; the outermost ring is not avoided: each of its real cells
other than the start is in the returned list. -/
theorem runMaze_in_grid (self : Maze) (sh : Shuffle) (hg : ValidGrid self.graph)
    (hs : ValidStart self) (hsh : PermShuffle sh) :
    ∃ l, (∀ fuel, 2 * numReal self.graph ≤ fuel + 1 →
        runMaze self sh fuel = Outcome.returned l) ∧
      (∀ p ∈ l, InGrid self.graph p) ∧
      (∀ p, RealCell self.graph p → OnRing self.graph p → p ≠ self.start → p ∈ l) := by
  obtain ⟨last, final, hr, hI, hf, hrun, _⟩ := run_shape hsh hs
  have hM := startInv_reaches hg.2.2.1 hg.2.2.2 hsh hs hr
  obtain ⟨hst, hfin, hcov, hvm⟩ := final_facts hI hf
  refine ⟨_, hrun, ?_, ?_⟩
  · intro p hp
    have hp2 : p ∈ final.mazeList :=
      List.mem_of_mem_tail (List.mem_of_mem_dropLast hp)
    rw [← hvm] at hp2
    rw [hfin] at hp2
    rcases List.mem_cons.mp hp2 with rfl | hp3
    · exact hs.1
    · rcases hI.visited_kind p hp3 with h | h
      · exact h.1
      · exact h.1
  · intro p hp _ hps
    have hp2 : p ∈ final.mazeList := (hvm p).mp (hcov p hp)
    rcases trim_facts hI hM hf with ⟨h, _⟩ | ⟨h, _⟩
    · rw [h] at hp2
      exact absurd (List.mem_singleton.mp hp2) hps
    · rw [h] at hp2
      simp only [List.mem_cons, List.mem_append, List.not_mem_nil, or_false] at hp2
      rcases hp2 with h0 | h0 | h0
      · exact absurd h0 hps
      · exact h0
      · exact absurd h0 hps

/-- C6, amended, on the 3x3 grid with the shuffle that reverses. -/
theorem runMaze_in_grid_witness :
    ValidGrid maze3.graph ∧ ValidStart maze3 ∧ PermShuffle revShuffle ∧
    ∃ l, (∀ fuel, 2 * numReal maze3.graph ≤ fuel + 1 →
        runMaze maze3 revShuffle fuel = Outcome.returned l) ∧
      (∀ p ∈ l, InGrid maze3.graph p) ∧
      (∀ p, RealCell maze3.graph p → OnRing maze3.graph p → p ≠ maze3.start → p ∈ l) :=
  ⟨by decide, by decide, permShuffle_rev,
    runMaze_in_grid maze3 revShuffle (by decide) (by decide) permShuffle_rev⟩

/-- C7. Coverage: on a valid grid, from a valid start, with a permuting shuffle, every
real cell is marked visited and occurs in the list recorded by `dfs`; every real cell
other than the start is picked as the neighbor of a forward step exactly once and occurs
in the list returned by `runMaze`. -/
theorem runMaze_covers (self : Maze) (sh : Shuffle) (hg : ValidGrid self.graph)
    (hs : ValidStart self) (hsh : PermShuffle sh) :
    ∃ final l, (∀ fuel, 2 * numReal self.graph ≤ fuel + 1 →
        dfs self.graph sh fuel (initCfg self.start) = Outcome.returned final ∧
        recorded self sh fuel = Outcome.returned final.mazeList ∧
        runMaze self sh fuel = Outcome.returned l) ∧
      (∀ p, RealCell self.graph p → p ∈ final.visited ∧ p ∈ final.mazeList) ∧
      (∀ p, RealCell self.graph p → p ≠ self.start →
        (∀ fuel, 2 * numReal self.graph ≤ fuel + 1 →
          (chosenList self.graph sh fuel (initCfg self.start)).count p = 1) ∧
        p ∈ l) := by
  obtain ⟨last, final, hr, hI, hf, hrun, hrec, hdfs⟩ := run_shape hsh hs
  have hM := startInv_reaches hg.2.2.1 hg.2.2.2 hsh hs hr
  obtain ⟨hst, hfin, hcov, hvm⟩ := final_facts hI hf
  refine ⟨final, _, fun fuel hfuel => ⟨hdfs fuel hfuel, hrec fuel hfuel, hrun fuel hfuel⟩,
    fun p hp => ⟨hcov p hp, (hvm p).mp (hcov p hp)⟩, ?_⟩
  intro p hp hps
  constructor
  · intro fuel hfuel
    obtain ⟨hnd, hmem⟩ := chosen_spec hsh fuel (initCfg self.start) (inv_init hs)
      ⟨final, hdfs fuel hfuel⟩
    apply count_eq_one_of_nodup hnd
    rw [hmem]
    refine ⟨hp, by simp [initCfg], ?_⟩
    simpa [initCfg] using hps
  · have hp2 : p ∈ final.mazeList := (hvm p).mp (hcov p hp)
    rcases trim_facts hI hM hf with ⟨h, _⟩ | ⟨h, _⟩
    · rw [h] at hp2
      exact absurd (List.mem_singleton.mp hp2) hps
    · rw [h] at hp2
      simp only [List.mem_cons, List.mem_append, List.not_mem_nil, or_false] at hp2
      rcases hp2 with h0 | h0 | h0
      · exact absurd h0 hps
      · exact h0
      · exact absurd h0 hps

/-- C7 on the 5x5 grid with the shuffle that changes nothing. -/
theorem runMaze_covers_witness :
    ValidGrid maze5.graph ∧ ValidStart maze5 ∧ PermShuffle idShuffle ∧
    ∃ final l, (∀ fuel, 2 * numReal maze5.graph ≤ fuel + 1 →
        dfs maze5.graph idShuffle fuel (initCfg maze5.start) = Outcome.returned final ∧
        recorded maze5 idShuffle fuel = Outcome.returned final.mazeList ∧
        runMaze maze5 idShuffle fuel = Outcome.returned l) ∧
      (∀ p, RealCell maze5.graph p → p ∈ final.visited ∧ p ∈ final.mazeList) ∧
      (∀ p, RealCell maze5.graph p → p ≠ maze5.start →
        (∀ fuel, 2 * numReal maze5.graph ≤ fuel + 1 →
          (chosenList maze5.graph idShuffle fuel (initCfg maze5.start)).count p = 1) ∧
        p ∈ l) :=
  ⟨by decide, by decide, permShuffle_id,
    runMaze_covers maze5 idShuffle (by decide) (by decide) permShuffle_id⟩

/-- C9. Result length: on a valid grid, from a valid start, with a permuting shuffle, the
list returned by `runMaze` has `3 * V - 4` entries, `V` the number of real cells; on the
5x5 grid that is 23 entries, an odd number. -/
theorem runMaze_length (self : Maze) (sh : Shuffle) (hg : ValidGrid self.graph)
    (hs : ValidStart self) (hsh : PermShuffle sh) :
    ∃ l, (∀ fuel, 2 * numReal self.graph ≤ fuel + 1 →
        runMaze self sh fuel = Outcome.returned l) ∧
      l.length + 4 = 3 * numReal self.graph ∧
      (self.graph = ⟨5, 5⟩ → l.length = 23 ∧ l.length % 2 = 1) := by
  obtain ⟨last, final, hr, _, hf, hrun, _⟩ := run_shape hsh hs
  have hlen := final_length hsh hs hr hf
  have h4 : final.mazeList.tail.dropLast.length + 4 = 3 * numReal self.graph := by
    have hV : 4 ≤ numReal self.graph := by
      obtain ⟨_, _, h3, h4⟩ := hg
      unfold numReal
      have a : 2 ≤ (self.graph.rows + 1) / 2 := by omega
      have b : 2 ≤ (self.graph.cols + 1) / 2 := by omega
      calc 4 = 2 * 2 := rfl
        _ ≤ _ := Nat.mul_le_mul a b
    simp only [List.length_dropLast, List.length_tail]
    omega
  refine ⟨_, hrun, h4, ?_⟩
  intro h5
  rw [h5] at h4
  have : numReal ⟨5, 5⟩ = 9 := by decide
  rw [this] at h4
  omega

/-- C9 on the 5x5 grid with the shuffle that reverses. -/
theorem runMaze_length_witness :
    ValidGrid maze5.graph ∧ ValidStart maze5 ∧ PermShuffle revShuffle ∧
    ∃ l, (∀ fuel, 2 * numReal maze5.graph ≤ fuel + 1 →
        runMaze maze5 revShuffle fuel = Outcome.returned l) ∧
      l.length + 4 = 3 * numReal maze5.graph ∧
      (maze5.graph = ⟨5, 5⟩ → l.length = 23 ∧ l.length % 2 = 1) :=
  ⟨by decide, by decide, permShuffle_rev,
    runMaze_length maze5 revShuffle (by decide) (by decide) permShuffle_rev⟩

/-- C12. Frontier-stack invariant: in a run of `runMaze` on a valid grid, from a valid
start, with a permuting shuffle, at the entry of every call of `dfs` the stack is not
empty (so the call does not raise), its bottom is the start, its cells are pairwise
distinct real cells, every two consecutive cells are exactly 2 apart on one axis with
their midpoint marked visited, and every cell below the top is marked visited. -/
theorem stack_is_path (self : Maze) (sh : Shuffle) (_hg : ValidGrid self.graph)
    (hs : ValidStart self) (hsh : PermShuffle sh) (a : Cfg)
    (ha : Reaches self.graph sh (initCfg self.start) a) :
    a.stack ≠ [] ∧ dfsStep self.graph sh a ≠ Step.throws ∧
      a.stack.getLast? = some self.start ∧
      a.stack.Nodup ∧ (∀ p ∈ a.stack, RealCell self.graph p) ∧
      List.Chain' (fun p q => TwoApart p q ∧ midpoint p q ∈ a.visited) a.stack ∧
      (∀ p ∈ a.stack.tail, p ∈ a.visited) := by
  have hI := inv_reaches hsh (inv_init hs) ha
  exact ⟨hI.stack_ne, step_not_throws hsh hI, hI.stack_last, hI.stack_nodup, hI.stack_real,
    chain_reaches hsh hs ha, hI.below⟩

/-- C12 at the second call on the 3x3 grid with the shuffle that changes nothing. -/
theorem stack_is_path_witness :
    ValidGrid maze3.graph ∧ ValidStart maze3 ∧ PermShuffle idShuffle ∧
    Reaches maze3.graph idShuffle (initCfg maze3.start)
      ⟨[(2, 0), (0, 0)], [(1, 0), (0, 0)], [(0, 0), (1, 0)], 1⟩ ∧
    (([(2, 0), (0, 0)] : List Coord) ≠ [] ∧
      dfsStep maze3.graph idShuffle
        ⟨[(2, 0), (0, 0)], [(1, 0), (0, 0)], [(0, 0), (1, 0)], 1⟩ ≠ Step.throws ∧
      ([(2, 0), (0, 0)] : List Coord).getLast? = some maze3.start ∧
      ([(2, 0), (0, 0)] : List Coord).Nodup ∧
      (∀ p ∈ ([(2, 0), (0, 0)] : List Coord), RealCell maze3.graph p) ∧
      List.Chain' (fun p q => TwoApart p q ∧ midpoint p q ∈ ([(1, 0), (0, 0)] : List Coord))
        ([(2, 0), (0, 0)] : List Coord) ∧
      (∀ p ∈ ([(2, 0), (0, 0)] : List Coord).tail, p ∈ ([(1, 0), (0, 0)] : List Coord))) :=
  ⟨by decide, by decide, permShuffle_id,
    Relation.ReflTransGen.single (by decide),
    stack_is_path maze3 idShuffle (by decide) (by decide) permShuffle_id
      ⟨[(2, 0), (0, 0)], [(1, 0), (0, 0)], [(0, 0), (1, 0)], 1⟩
      (Relation.ReflTransGen.single (by decide))⟩

/-- C13, counterexample: on the 3x3 grid with start (0,0) and end (2,2) the shuffle that
changes nothing and the shuffle that reverses, both permuting, make `runMaze` return two
different lists. -/
theorem maze3_not_single :
    PermShuffle idShuffle ∧ PermShuffle revShuffle ∧
      runMaze maze3 idShuffle 7 = Outcome.returned maze3List ∧
      runMaze maze3 revShuffle 7 = Outcome.returned maze3ListAlt ∧
      maze3List ≠ maze3ListAlt :=
  ⟨permShuffle_id, permShuffle_rev, by decide, by decide, by decide⟩

/-- C13, amended. On the 3x3 grid with start (0,0) and end (2,2), with a permuting
shuffle, `runMaze` returns as soon as 7 calls of `dfs` are allowed, and the returned list
is one of two lists, according to the neighbor that the first call picks: the path
through (2,0), (2,2), (0,2) or the path through (0,2), (2,2), (2,0). -/
theorem maze3_two_lists (sh : Shuffle) (hsh : PermShuffle sh) :
    ∃ l, (∀ fuel, 7 ≤ fuel → runMaze maze3 sh fuel = Outcome.returned l) ∧
      (l = maze3List ∨ l = maze3ListAlt) := by
  have hs : ValidStart maze3 := by decide
  have hV : numReal maze3.graph = 4 := by decide
  obtain ⟨last, final, _, _, _, hrun, _⟩ := run_shape hsh hs
  refine ⟨_, fun fuel hfuel => hrun fuel (by omega), ?_⟩
  have h7 := hrun 7 (by omega)
  rcases maze3_run sh hsh with h | h
  · left
    rw [h7] at h
    exact Outcome.returned.inj h
  · right
    rw [h7] at h
    exact Outcome.returned.inj h

/-- C13, amended, with the shuffle that reverses. -/
theorem maze3_two_lists_witness :
    PermShuffle revShuffle ∧
    ∃ l, (∀ fuel, 7 ≤ fuel → runMaze maze3 revShuffle fuel = Outcome.returned l) ∧
      (l = maze3List ∨ l = maze3ListAlt) :=
  ⟨permShuffle_rev, maze3_two_lists revShuffle permShuffle_rev⟩

/-- C14. Trimming removes only start: on a valid grid, from a valid start, with a
permuting shuffle, the last call of `dfs` finds the start alone on the stack, the list
recorded by `dfs` has at least two entries, its first and its last entry are the start,
and the list returned by `runMaze` is the recorded list without these two entries. -/
theorem trim_removes_start (self : Maze) (sh : Shuffle) (hg : ValidGrid self.graph)
    (hs : ValidStart self) (hsh : PermShuffle sh) :
    ∃ last final l, Reaches self.graph sh (initCfg self.start) last ∧
      last.stack = [self.start] ∧ dfsStep self.graph sh last = Step.finish final ∧
      (∀ fuel, 2 * numReal self.graph ≤ fuel + 1 →
        recorded self sh fuel = Outcome.returned final.mazeList ∧
        runMaze self sh fuel = Outcome.returned l) ∧
      2 ≤ final.mazeList.length ∧
      final.mazeList.head? = some self.start ∧
      final.mazeList.getLast? = some self.start ∧
      final.mazeList = self.start :: (l ++ [self.start]) := by
  obtain ⟨last, final, hr, hI, hf, hrun, hrec, _⟩ := run_shape hsh hs
  have hM := startInv_reaches hg.2.2.1 hg.2.2.2 hsh hs hr
  obtain ⟨hst, _, _, _⟩ := final_facts hI hf
  have hlen := final_length hsh hs hr hf
  have hV := numReal_ge_four hg
  refine ⟨last, final, _, hr, hst, hf,
    fun fuel hfuel => ⟨hrec fuel hfuel, hrun fuel hfuel⟩, by omega, ?_⟩
  rcases trim_facts hI hM hf with ⟨h, _⟩ | ⟨h, _⟩
  · rw [h] at hlen
    simp only [List.length_singleton] at hlen
    omega
  · refine ⟨?_, ?_, h⟩
    · rw [h]
      rfl
    · rw [h, ← List.cons_append, List.getLast?_append]
      rfl

/-- C14 on the 5x5 grid with the shuffle that reverses. -/
theorem trim_removes_start_witness :
    ValidGrid maze5.graph ∧ ValidStart maze5 ∧ PermShuffle revShuffle ∧
    ∃ last final l, Reaches maze5.graph revShuffle (initCfg maze5.start) last ∧
      last.stack = [maze5.start] ∧ dfsStep maze5.graph revShuffle last = Step.finish final ∧
      (∀ fuel, 2 * numReal maze5.graph ≤ fuel + 1 →
        recorded maze5 revShuffle fuel = Outcome.returned final.mazeList ∧
        runMaze maze5 revShuffle fuel = Outcome.returned l) ∧
      2 ≤ final.mazeList.length ∧
      final.mazeList.head? = some maze5.start ∧
      final.mazeList.getLast? = some maze5.start ∧
      final.mazeList = maze5.start :: (l ++ [maze5.start]) :=
  ⟨by decide, by decide, permShuffle_rev,
    trim_removes_start maze5 revShuffle (by decide) (by decide) permShuffle_rev⟩

/-- C15. In-bounds output: on a grid with at least one row and one column, from a start
inside the grid (of any parity), with a permuting shuffle, at every call of `dfs` the
cells on the stack and the coordinates recorded so far lie inside the grid; `runMaze`
returns as soon as `2 * rows * cols - 1` calls are allowed, and every coordinate of the
recorded list and of the returned list lies inside the grid. -/
theorem recorded_in_grid (self : Maze) (sh : Shuffle) (_hr : 1 ≤ self.graph.rows)
    (_hc : 1 ≤ self.graph.cols) (hs : InGrid self.graph self.start)
    (hsh : PermShuffle sh) :
    (∀ a, Reaches self.graph sh (initCfg self.start) a →
      (∀ p ∈ a.stack, InGrid self.graph p) ∧ (∀ p ∈ a.mazeList, InGrid self.graph p)) ∧
    ∃ rec l, (∀ fuel, 2 * (self.graph.rows * self.graph.cols) ≤ fuel + 1 →
        recorded self sh fuel = Outcome.returned rec ∧
        runMaze self sh fuel = Outcome.returned l) ∧
      (∀ p ∈ rec, InGrid self.graph p) ∧ (∀ p ∈ l, InGrid self.graph p) := by
  have hinv : ∀ a, Reaches self.graph sh (initCfg self.start) a →
      StackInv (InGrid self.graph) (InGrid self.graph) a := fun a ha =>
    stackInv_reaches hsh (fun _ _ hc h => nbr_inGrid hc h) (fun _ hc => hc)
      (fun _ _ hc h => inBetween_inGrid hc h) (stackInv_init hs) ha
  refine ⟨fun a ha => ⟨(hinv a ha).stack_P, (hinv a ha).recorded_Q⟩, ?_⟩
  obtain ⟨last, final, hr, hf, hrun⟩ := run_shape_box self hsh
  have hrec := stackInv_final (fun _ hc => hc) (hinv last hr) hf
  rw [card_boxCells_of_inGrid hs] at hrun
  refine ⟨_, _, fun fuel hfuel => (hrun fuel hfuel).2, hrec, ?_⟩
  intro p hp
  exact hrec p (List.mem_of_mem_tail (List.mem_of_mem_dropLast hp))

/-- C15 on the 4x6 grid with start (1,2) and the shuffle that reverses. -/
theorem recorded_in_grid_witness :
    1 ≤ maze46.graph.rows ∧ 1 ≤ maze46.graph.cols ∧ InGrid maze46.graph maze46.start ∧
    PermShuffle revShuffle ∧
    ((∀ a, Reaches maze46.graph revShuffle (initCfg maze46.start) a →
      (∀ p ∈ a.stack, InGrid maze46.graph p) ∧
      (∀ p ∈ a.mazeList, InGrid maze46.graph p)) ∧
    ∃ rec l, (∀ fuel, 2 * (maze46.graph.rows * maze46.graph.cols) ≤ fuel + 1 →
        recorded maze46 revShuffle fuel = Outcome.returned rec ∧
        runMaze maze46 revShuffle fuel = Outcome.returned l) ∧
      (∀ p ∈ rec, InGrid maze46.graph p) ∧ (∀ p ∈ l, InGrid maze46.graph p)) :=
  ⟨by decide, by decide, by decide, permShuffle_rev,
    recorded_in_grid maze46 revShuffle (by decide) (by decide) (by decide) permShuffle_rev⟩

/-- C16. Interior preservation for odd starts: on a valid grid, from a start with odd row
and odd column inside the ring, with a permuting shuffle, at every call of `dfs` the cells
on the stack and the coordinates recorded so far lie in rows 1 to `rows - 2` and columns
1 to `cols - 2`; `runMaze` returns, every recorded coordinate lies there, and no returned
coordinate is on the outermost ring. -/
theorem odd_start_interior (self : Maze) (sh : Shuffle) (hg : ValidGrid self.graph)
    (hodd : OddCell self.start) (hin : Interior self.graph self.start)
    (hsh : PermShuffle sh) :
    (∀ a, Reaches self.graph sh (initCfg self.start) a →
      (∀ p ∈ a.stack, Interior self.graph p) ∧ (∀ p ∈ a.mazeList, Interior self.graph p)) ∧
    ∃ rec l, (∀ fuel, 2 * (self.graph.rows * self.graph.cols) ≤ fuel + 1 →
        recorded self sh fuel = Outcome.returned rec ∧
        runMaze self sh fuel = Outcome.returned l) ∧
      (∀ p ∈ rec, Interior self.graph p) ∧ (∀ p ∈ l, ¬ OnRing self.graph p) := by
  obtain ⟨g1, g2, _, _⟩ := hg
  have hP : ∀ c n, (OddCell c ∧ Interior self.graph c) → Nbr self.graph c n →
      (OddCell n ∧ Interior self.graph n) := by
    intro c n hc h
    unfold OddCell Interior at hc ⊢
    rcases h with ⟨rfl, h⟩ | ⟨rfl, h⟩ | ⟨rfl, h⟩ | ⟨rfl, h⟩ <;> simp only <;> omega
  have hQ : ∀ c n, (OddCell c ∧ Interior self.graph c) → Nbr self.graph c n →
      Interior self.graph (getInBetweenNodes c n) := by
    intro c n hc h
    have hn := (hP c n hc h).2
    have hm := inBetween_of_nbr h
    have hc2 := hc.2
    unfold Interior at hc2 hn ⊢
    omega
  have hinv : ∀ a, Reaches self.graph sh (initCfg self.start) a →
      StackInv (fun p => OddCell p ∧ Interior self.graph p) (Interior self.graph) a :=
    fun a ha => stackInv_reaches hsh hP (fun _ hc => hc.2) hQ
      (stackInv_init ⟨hodd, hin⟩) ha
  refine ⟨fun a ha => ⟨fun p hp => ((hinv a ha).stack_P p hp).2, (hinv a ha).recorded_Q⟩, ?_⟩
  obtain ⟨last, final, hr, hf, hrun⟩ := run_shape_box self hsh
  have hrec := stackInv_final (fun _ hc => hc.2) (hinv last hr) hf
  have hsg : InGrid self.graph self.start := by
    unfold Interior at hin
    unfold InGrid
    omega
  rw [card_boxCells_of_inGrid hsg] at hrun
  refine ⟨_, _, fun fuel hfuel => (hrun fuel hfuel).2, hrec, ?_⟩
  intro p hp
  have := hrec p (List.mem_of_mem_tail (List.mem_of_mem_dropLast hp))
  unfold Interior at this
  unfold OnRing
  omega

/-- C16 on the 5x5 grid with start (1,1) and the shuffle that changes nothing. -/
theorem odd_start_interior_witness :
    ValidGrid maze5odd.graph ∧ OddCell maze5odd.start ∧
    Interior maze5odd.graph maze5odd.start ∧ PermShuffle idShuffle ∧
    ((∀ a, Reaches maze5odd.graph idShuffle (initCfg maze5odd.start) a →
      (∀ p ∈ a.stack, Interior maze5odd.graph p) ∧
      (∀ p ∈ a.mazeList, Interior maze5odd.graph p)) ∧
    ∃ rec l, (∀ fuel, 2 * (maze5odd.graph.rows * maze5odd.graph.cols) ≤ fuel + 1 →
        recorded maze5odd idShuffle fuel = Outcome.returned rec ∧
        runMaze maze5odd idShuffle fuel = Outcome.returned l) ∧
      (∀ p ∈ rec, Interior maze5odd.graph p) ∧ (∀ p ∈ l, ¬ OnRing maze5odd.graph p)) :=
  ⟨by decide, by decide, by decide, permShuffle_id,
    odd_start_interior maze5odd idShuffle (by decide) (by decide) (by decide)
      permShuffle_id⟩

end RecursiveBacktracking
